import Mathlib

/-!
# Verification of quantile-compression chunk metadata and timestamp types

A shallow embedding of:

* `src/src/types/timestamps.rs` — the `TimestampNanos` / `TimestampMicros`
  numeric types (both generated by the `impl_timestamp!` macro, so they share
  one implementation parameterized by `parts_per_sec`);
* `src/q_compress/src/chunk_metadata.rs` — `ChunkMetadata::{parse_from,
  write_to, update_write_compressed_body_size}` and the prefix-table
  (de)serialization helpers `parse_prefixes` / `write_prefixes`.

Machine integers are embedded as `Nat` / `Int` with explicit `% 2^w`
wherever the Rust code wraps.  Bitstreams are `List Bool`, MSB-first within
each written field, matching the spec's BitReader/BitWriter description.
Fallible operations return `Except QCompressError`.

Components of the repository that the two source files call but whose code
is not part of the sources (BitReader/BitWriter, `gcd_utils`, `Flags`,
`DeltaMoments`, the `constants` module) are modelled from the spec; each such
definition carries a doc comment starting with `Modelled from the spec:`.
-/

namespace QC

/-- The error type of the crate (`QCompressError`): explicit result values,
no exceptions.  `corruption` and `invalidArgument` carry their user-visible
message; `insufficientData` is the reader-past-end error. -/
inductive QCompressError : Type where
  | corruption (msg : String)
  | invalidArgument (msg : String)
  | insufficientData
  deriving DecidableEq, Repr

abbrev QResult (α : Type) := Except QCompressError α

instance exceptDecEq {ε α : Type} [DecidableEq ε] [DecidableEq α] :
    DecidableEq (Except ε α) := fun x y =>
  match x, y with
  | .ok a, .ok b =>
      if h : a = b then .isTrue (by rw [h]) else
        .isFalse (fun hh => h (Except.ok.inj hh))
  | .ok _, .error _ => .isFalse (fun hh => Except.noConfusion hh)
  | .error _, .ok _ => .isFalse (fun hh => Except.noConfusion hh)
  | .error e, .error f =>
      if h : e = f then .isTrue (by rw [h]) else
        .isFalse (fun hh => h (Except.error.inj hh))

theorem qbind_ok {α β : Type} (a : α) (f : α → QResult β) :
    (Except.ok a : QResult α) >>= f = f a := rfl

theorem qbind_error {α β : Type} (e : QCompressError) (f : α → QResult β) :
    (Except.error e : QResult α) >>= f = .error e := rfl

/-- Inversion for a successful `Except` bind: the first stage succeeded. -/
theorem qbind_eq_ok {α β : Type} {x : QResult α} {f : α → QResult β} {b : β}
    (h : x >>= f = .ok b) : ∃ a, x = .ok a ∧ f a = .ok b := by
  cases x with
  | ok a => exact ⟨a, rfl, h⟩
  | error e => exact absurd h (by simp [qbind_error])

/-- The number of binary digits of `n` (`0` for `0`), computed with
structural fuel so that concrete instances reduce inside the kernel. -/
def sizeAux : Nat → Nat → Nat
  | 0, _ => 0
  | fuel + 1, n => if n = 0 then 0 else sizeAux fuel (n / 2) + 1

/-- `bitsUsed n` is the bit length of `n`: the least `b` with `n < 2^b`,
i.e. `ceil(log2(n + 1))`. -/
def bitsUsed (n : Nat) : Nat := sizeAux n n

theorem sizeAux_zero (f : Nat) : sizeAux f 0 = 0 := by
  cases f <;> simp [sizeAux]

theorem sizeAux_congr (n : Nat) : ∀ (f g : Nat), n ≤ f → n ≤ g →
    sizeAux f n = sizeAux g n := by
  induction n using Nat.strong_induction_on with
  | _ n ih =>
      intro f g hf hg
      by_cases hn : n = 0
      · subst hn; rw [sizeAux_zero, sizeAux_zero]
      · obtain ⟨f1, rfl⟩ : ∃ f1, f = f1 + 1 := ⟨f - 1, by omega⟩
        obtain ⟨g1, rfl⟩ : ∃ g1, g = g1 + 1 := ⟨g - 1, by omega⟩
        simp only [sizeAux, if_neg hn]
        rw [ih (n / 2) (by omega) f1 g1 (by omega) (by omega)]

theorem bitsUsed_rec (n : Nat) (hn : n ≠ 0) :
    bitsUsed n = bitsUsed (n / 2) + 1 := by
  unfold bitsUsed
  obtain ⟨m, rfl⟩ : ∃ m, n = m + 1 := ⟨n - 1, by omega⟩
  simp only [sizeAux, if_neg (by omega : m + 1 ≠ 0)]
  rw [sizeAux_congr ((m + 1) / 2) m ((m + 1) / 2) (by omega) le_rfl]

theorem bitsUsed_lt (n : Nat) : n < 2 ^ bitsUsed n := by
  induction n using Nat.strong_induction_on with
  | _ n ih =>
      by_cases hn : n = 0
      · simp [hn, bitsUsed, sizeAux]
      · rw [bitsUsed_rec n hn, pow_succ]
        have := ih (n / 2) (by omega)
        omega

theorem bitsUsed_two_pow_sub_one (w : Nat) : bitsUsed (2 ^ w - 1) = w := by
  induction w with
  | zero => simp [bitsUsed, sizeAux]
  | succ w ih =>
      have hpos : 2 ^ (w + 1) - 1 ≠ 0 := by
        have : 2 ≤ 2 ^ (w + 1) := Nat.one_lt_two_pow_iff.mpr (by omega)
        omega
      rw [bitsUsed_rec _ hpos]
      have hdiv : (2 ^ (w + 1) - 1) / 2 = 2 ^ w - 1 := by
        have h2 : 2 ^ (w + 1) = 2 * 2 ^ w := by rw [pow_succ]; ring
        omega
      rw [hdiv, ih]

/-! ## Bit-level primitives

Modelled from the spec: §4.1 BitReader / BitWriter.  A bitstream is a
`List Bool`; multi-bit fields are big-endian (MSB first) within their
declared width. -/

/-- The `w`-bit big-endian (MSB-first) representation of `v % 2^w`.
Modelled from the spec: `write_usize(value, nbits)` writes `value` big-endian
within the requested width. -/
def natBits : Nat → Nat → List Bool
  | 0, _ => []
  | w + 1, v => natBits w (v / 2) ++ [v % 2 == 1]

/-- The value of an MSB-first bit string. -/
def bitsToNat (bs : List Bool) : Nat :=
  bs.foldl (fun acc b => 2 * acc + (if b then 1 else 0)) 0

/-- Modelled from the spec: `read(nbits)` returns the next `nbits` bits and
fails with `InsufficientData` past the end of the buffer. -/
def readBits (k : Nat) (s : List Bool) : QResult (List Bool × List Bool) :=
  if k ≤ s.length then .ok (s.take k, s.drop k) else .error .insufficientData

/-- Modelled from the spec: `read_usize(nbits)` (big-endian within the
requested width). -/
def readUsize (k : Nat) (s : List Bool) : QResult (Nat × List Bool) :=
  (readBits k s).map (fun p => (bitsToNat p.1, p.2))

/-- Modelled from the spec: `read_one() → bool`. -/
def readOne (s : List Bool) : QResult (Bool × List Bool) :=
  match s with
  | [] => .error .insufficientData
  | b :: r => .ok (b, r)

/-- Modelled from the spec: `finish_byte()` pads the current byte with zero
bits to the next byte boundary. -/
def finishByte (buf : List Bool) : List Bool :=
  buf ++ List.replicate ((8 - buf.length % 8) % 8) false

/-- Modelled from the spec: `overwrite_usize(bit_idx, value, nbits)`
back-patches a previously written field in place. -/
def overwriteUsize (bitIdx v w : Nat) (buf : List Bool) : List Bool :=
  buf.take bitIdx ++ natBits w v ++ buf.drop (bitIdx + w)

theorem natBits_length (w v : Nat) : (natBits w v).length = w := by
  induction w generalizing v with
  | zero => rfl
  | succ w ih => simp [natBits, ih]

theorem bitsToNat_concat (l : List Bool) (b : Bool) :
    bitsToNat (l ++ [b]) = 2 * bitsToNat l + (if b then 1 else 0) := by
  simp [bitsToNat, List.foldl_append]

theorem bitsToNat_natBits (w v : Nat) : bitsToNat (natBits w v) = v % 2 ^ w := by
  induction w generalizing v with
  | zero => simp [natBits, bitsToNat, Nat.mod_one]
  | succ w ih =>
      rw [natBits, bitsToNat_concat, ih]
      have h2 : (2 : Nat) ^ (w + 1) = 2 * 2 ^ w := by ring
      rw [h2, Nat.mod_mul]
      rcases Nat.mod_two_eq_zero_or_one v with h | h <;> (simp [h]; try omega)

theorem readBits_append (l r : List Bool) :
    readBits l.length (l ++ r) = .ok (l, r) := by
  simp [readBits, List.take_left, List.drop_left]

theorem readBits_exact (k : Nat) (l r : List Bool) (h : l.length = k) :
    readBits k (l ++ r) = .ok (l, r) := by
  subst h; exact readBits_append l r

theorem readUsize_natBits (k v : Nat) (r : List Bool) (h : v < 2 ^ k) :
    readUsize k (natBits k v ++ r) = .ok (v, r) := by
  rw [readUsize, readBits_exact k _ r (natBits_length k v)]
  simp [Except.map, bitsToNat_natBits, Nat.mod_eq_of_lt h]

theorem readOne_cons (b : Bool) (r : List Bool) :
    readOne (b :: r) = .ok (b, r) := rfl

/-! ## Byte-level primitives (for timestamp `to_bytes` / `from_bytes`) -/

/-- The `w`-byte big-endian representation of `v % 256^w`, as a list of
byte values (each `< 256`).  Embeds Rust's `u128::to_be_bytes` slices. -/
def beBytes : Nat → Nat → List Nat
  | 0, _ => []
  | w + 1, v => beBytes w (v / 256) ++ [v % 256]

/-- The value of a big-endian byte list (embeds `u128::from_be_bytes`). -/
def beBytesToNat (bs : List Nat) : Nat :=
  bs.foldl (fun acc b => 256 * acc + b) 0

theorem beBytes_length (w v : Nat) : (beBytes w v).length = w := by
  induction w generalizing v with
  | zero => rfl
  | succ w ih => simp [beBytes, ih]

theorem beBytesToNat_concat (l : List Nat) (b : Nat) :
    beBytesToNat (l ++ [b]) = 256 * beBytesToNat l + b := by
  simp [beBytesToNat, List.foldl_append]

theorem beBytesToNat_beBytes (w v : Nat) :
    beBytesToNat (beBytes w v) = v % 256 ^ w := by
  induction w generalizing v with
  | zero => simp [beBytes, beBytesToNat, Nat.mod_one]
  | succ w ih =>
      rw [beBytes, beBytesToNat_concat, ih]
      have h2 : (256 : Nat) ^ (w + 1) = 256 * 256 ^ w := by ring
      rw [h2, Nat.mod_mul]
      omega

theorem beBytesToNat_replicate_zero_append (k : Nat) (bs : List Nat) :
    beBytesToNat (List.replicate k 0 ++ bs) = beBytesToNat bs := by
  induction k with
  | zero => rfl
  | succ k ih =>
      have : List.replicate (k + 1) 0 ++ bs = 0 :: (List.replicate k 0 ++ bs) := by
        simp [List.replicate_succ]
      rw [this]
      simpa [beBytesToNat] using ih

theorem beBytes_add (a b v : Nat) :
    beBytes (a + b) v = beBytes a (v / 256 ^ b) ++ beBytes b v := by
  induction b generalizing v with
  | zero => simp [beBytes]
  | succ b ih =>
      have h1 : a + (b + 1) = (a + b) + 1 := by ring
      rw [h1, beBytes, ih (v / 256), beBytes]
      have h2 : v / 256 / 256 ^ b = v / 256 ^ (b + 1) := by
        rw [Nat.div_div_eq_div_mul, pow_succ]
        ring_nf
      rw [h2, List.append_assoc]

/-! ## Timestamps (`src/src/types/timestamps.rs`)

`TimestampNanos` and `TimestampMicros` are both generated by the
`impl_timestamp!` macro, so they share a single implementation parameterized
by `parts_per_sec` (`10^9` for nanos, `10^6` for micros).  A timestamp
stores an `i128` count of "parts" since the Unix epoch; `i128` values are
embedded as `Int` with explicit wrapping (`wrap128`) wherever the Rust code
performs a wrapping operation or a two's-complement cast. -/

/-- `i128::MIN`. -/
def i128Min : Int := -(2 ^ 127)

/-- `z` is representable as an `i128`. -/
def isI128 (z : Int) : Prop := -(2 ^ 127) ≤ z ∧ z < 2 ^ 127

instance (z : Int) : Decidable (isI128 z) := by unfold isI128; infer_instance

/-- Reduce an unbounded integer into the `i128` range by two's-complement
wrapping; embeds Rust's `wrapping_add` / `wrapping_sub` / `as i128` casts. -/
def wrap128 (z : Int) : Int := (z + 2 ^ 127) % (2 ^ 128 : Int) - 2 ^ 127

/-- `parts_per_sec` for `TimestampNanos`. -/
def ppsNanos : Nat := 1000000000

/-- `parts_per_sec` for `TimestampMicros`. -/
def ppsMicros : Nat := 1000000

/-- A timestamp: an instant relative to the Unix epoch, stored as an `i128`
number of parts (`TimestampNanos(i128)` / `TimestampMicros(i128)`). -/
structure Timestamp : Type where
  parts : Int
  deriving DecidableEq, Repr

/-- `i64::MIN` as an `i128`. -/
def i64Min : Int := -(2 ^ 63)

/-- `i64::MAX` as an `i128`. -/
def i64Max : Int := 2 ^ 63 - 1

/-- `Self::MIN = parts_per_sec as i128 * (i64::MIN as i128)`. -/
def tsMin (pps : Nat) : Int := (pps : Int) * i64Min

/-- `Self::MAX = parts_per_sec as i128 * (i64::MAX as i128 + 1) - 1`. -/
def tsMax (pps : Nat) : Int := (pps : Int) * (i64Max + 1) - 1

/-- The `invalid_argument` message format of `Timestamp::new`:
`"invalid timestamp with {}/{} of a second"`. -/
def tsInvalidMsg (pps : Nat) (parts : Int) : String :=
  "invalid timestamp with " ++ toString parts ++ "/" ++ toString pps ++
    " of a second"

namespace Timestamp

/-- `Timestamp::new(parts)`: fails with `invalid_argument` when `parts` is
outside `[Self::MIN, Self::MAX]`, otherwise holds exactly those parts. -/
def new (pps : Nat) (parts : Int) : QResult Timestamp :=
  if parts > tsMax pps ∨ parts < tsMin pps then
    .error (.invalidArgument (tsInvalidMsg pps parts))
  else
    .ok ⟨parts⟩

/-- `to_unsigned: self.0.wrapping_sub(i128::MIN) as u128`.  The wrapping
difference is reinterpreted as an unsigned 128-bit value. -/
def toUnsigned (t : Timestamp) : Nat := ((t.parts - i128Min) % (2 ^ 128 : Int)).toNat

/-- `from_unsigned: Self(i128::MIN.wrapping_add(off as i128))`. -/
def fromUnsigned (off : Nat) : Timestamp := ⟨wrap128 (i128Min + wrap128 (off : Int))⟩

/-- `to_signed: self.0`. -/
def toSigned (t : Timestamp) : Int := t.parts

/-- `from_signed: Self(signed)` — no range validation (the source carries a
TODO about checking bounds at the end of decompression instead). -/
def fromSigned (signed : Int) : Timestamp := ⟨signed⟩

/-- `to_bytes: ((self.0 - Self::MIN) as u128).to_be_bytes()[4..].to_vec()`:
the 16-byte big-endian form of the wrapped difference with the 4 most
significant bytes dropped. -/
def toBytes (pps : Nat) (t : Timestamp) : List Nat :=
  (beBytes 16 ((t.parts - tsMin pps) % (2 ^ 128 : Int)).toNat).drop 4

/-- `from_bytes`: prepend 4 zero bytes, reinterpret the 16 bytes as a `u128`,
cast to `i128` (two's complement), add `Self::MIN`, and validate via `new`. -/
def fromBytes (pps : Nat) (bytes : List Nat) : QResult Timestamp :=
  new pps (wrap128 (beBytesToNat (List.replicate 4 0 ++ bytes) : Int) + tsMin pps)

/-- The `Display` implementation: `"Timestamp({}/{})"`. -/
def display (pps : Nat) (t : Timestamp) : String :=
  "Timestamp(" ++ toString t.parts ++ "/" ++ toString pps ++ ")"

end Timestamp

theorem wrap128_eq_self (z : Int) (h : isI128 z) : wrap128 z = z := by
  obtain ⟨h1, h2⟩ := h
  have e127 : (2 : Int) ^ 127 = 170141183460469231731687303715884105728 := by norm_num
  have e128 : (2 : Int) ^ 128 = 340282366920938463463374607431768211456 := by norm_num
  unfold wrap128
  rw [e127, e128] at *
  omega

theorem wrap128_isI128 (z : Int) : isI128 (wrap128 z) := by
  have e127 : (2 : Int) ^ 127 = 170141183460469231731687303715884105728 := by norm_num
  have e128 : (2 : Int) ^ 128 = 340282366920938463463374607431768211456 := by norm_num
  unfold wrap128 isI128
  rw [e127, e128]
  omega

theorem drop_length_append {α : Type} (l₁ l₂ : List α) (n : Nat)
    (h : l₁.length = n) : (l₁ ++ l₂).drop n = l₂ := by
  subst h; exact List.drop_left _ _

theorem take_length_append {α : Type} (l₁ l₂ : List α) (n : Nat)
    (h : l₁.length = n) : (l₁ ++ l₂).take n = l₁ := by
  subst h; exact List.take_left _ _

/-- `tsMin` for the nanosecond type, as a numeral. -/
theorem tsMin_nanos : tsMin ppsNanos = -9223372036854775808000000000 := by
  norm_num [tsMin, i64Min, ppsNanos]

/-- `tsMax` for the nanosecond type, as a numeral. -/
theorem tsMax_nanos : tsMax ppsNanos = 9223372036854775807999999999 := by
  norm_num [tsMax, i64Max, ppsNanos]

/-- `tsMin` for the microsecond type, as a numeral. -/
theorem tsMin_micros : tsMin ppsMicros = -9223372036854775808000000 := by
  norm_num [tsMin, i64Min, ppsMicros]

/-- `tsMax` for the microsecond type, as a numeral. -/
theorem tsMax_micros : tsMax ppsMicros = 9223372036854775807999999 := by
  norm_num [tsMax, i64Max, ppsMicros]

/-- For either supported `parts_per_sec`, a valid parts value is within
`2^96` of `MIN` (so the 12-byte wire form is lossless). -/
theorem ts_range_bound (pps : Nat) (parts : Int)
    (hpps : pps = ppsNanos ∨ pps = ppsMicros)
    (h1 : tsMin pps ≤ parts) (h2 : parts ≤ tsMax pps) :
    0 ≤ parts - tsMin pps ∧ parts - tsMin pps < 2 ^ 96 := by
  have e96 : (2 : Int) ^ 96 = 79228162514264337593543950336 := by norm_num
  rcases hpps with h | h <;> subst h
  · rw [tsMin_nanos] at h1 ⊢
    rw [tsMax_nanos] at h2
    rw [e96]
    omega
  · rw [tsMin_micros] at h1 ⊢
    rw [tsMax_micros] at h2
    rw [e96]
    omega

/-- For valid parts, `to_bytes` is the 12-byte big-endian form of
`parts − MIN` (helper shared by the C5 and C6 theorems). -/
theorem toBytes_in_range (pps : Nat) (parts : Int)
    (h0 : tsMin pps ≤ parts) (h96 : parts - tsMin pps < 2 ^ 96) :
    Timestamp.toBytes pps ⟨parts⟩ = beBytes 12 ((parts - tsMin pps).toNat) := by
  have hmod : (parts - tsMin pps) % (2 ^ 128 : Int) = parts - tsMin pps := by
    apply Int.emod_eq_of_lt (by omega)
    calc parts - tsMin pps < 2 ^ 96 := h96
      _ < 2 ^ 128 := by norm_num
  unfold Timestamp.toBytes
  dsimp only
  rw [hmod, beBytes_add 4 12]
  exact drop_length_append _ _ 4 (beBytes_length 4 _)

/-- **C3**: for both timestamp types (which share one macro-generated
implementation independent of `parts_per_sec`), `to_unsigned` is the wrapping
subtraction of the minimum representable instant — `i128::MIN`, the least
value the `i128` parts representation can hold (`from_signed` constructs
timestamps at any `i128`; the constructor bound `tsMin` is the least *valid*
instant) — `from_unsigned` inverts `to_unsigned`, and the natural order on
parts corresponds exactly to the order of the unsigned images. -/
theorem c3_timestamp_unsigned_contract (a b : Int)
    (ha : isI128 a) (hb : isI128 b) :
    Timestamp.toUnsigned ⟨a⟩ = ((a - i128Min) % (2 ^ 128 : Int)).toNat
    ∧ Timestamp.fromUnsigned (Timestamp.toUnsigned ⟨a⟩) = ⟨a⟩
    ∧ (a ≤ b ↔ Timestamp.toUnsigned ⟨a⟩ ≤ Timestamp.toUnsigned ⟨b⟩) := by
  have e127 : (2 : Int) ^ 127 = 170141183460469231731687303715884105728 := by norm_num
  have e128 : (2 : Int) ^ 128 = 340282366920938463463374607431768211456 := by norm_num
  obtain ⟨ha1, ha2⟩ := ha
  obtain ⟨hb1, hb2⟩ := hb
  rw [e127] at ha1 ha2 hb1 hb2
  refine ⟨rfl, ?_, ?_⟩
  · unfold Timestamp.fromUnsigned Timestamp.toUnsigned wrap128 i128Min
    rw [Timestamp.mk.injEq]
    dsimp only
    rw [e127, e128]
    omega
  · unfold Timestamp.toUnsigned i128Min
    dsimp only
    rw [e127, e128]
    omega

/-- Witness for C3 at the concrete instants `0` and `1`. -/
theorem c3_timestamp_unsigned_contract_witness :
    Timestamp.toUnsigned ⟨0⟩ = ((0 - i128Min) % (2 ^ 128 : Int)).toNat
    ∧ Timestamp.fromUnsigned (Timestamp.toUnsigned ⟨0⟩) = ⟨0⟩
    ∧ ((0 : Int) ≤ 1 ↔ Timestamp.toUnsigned ⟨0⟩ ≤ Timestamp.toUnsigned ⟨1⟩) :=
  c3_timestamp_unsigned_contract 0 1 (by norm_num [isI128]) (by norm_num [isI128])

/-- The spec's literal description of the on-wire bytes: the *top*
`PHYSICAL_BITS/8 = 12` bytes of `(parts − MIN)` represented in big-endian
(as the 16-byte big-endian form of the `u128` difference, whose top bytes
are its 12 most significant ones). -/
def specTopBytes (pps : Nat) (t : Timestamp) : List Nat :=
  (beBytes 16 ((t.parts - tsMin pps).toNat)).take 12

/-- **C5 counterexample**: at `parts = MIN + 1` (nanosecond type) the code's
`to_bytes` output is the 12-byte big-endian form of `1` — the *low-order*
12 bytes of the 16-byte `u128` form — which differs from the top 12 bytes
the claim describes (those are all zero here). -/
theorem c5_counterexample :
    Timestamp.toBytes ppsNanos ⟨tsMin ppsNanos + 1⟩
        ≠ specTopBytes ppsNanos ⟨tsMin ppsNanos + 1⟩
    ∧ Timestamp.toBytes ppsNanos ⟨tsMin ppsNanos + 1⟩ = beBytes 12 1 := by
  have h1 : tsMin ppsNanos ≤ tsMin ppsNanos + 1 := by omega
  have h96 : tsMin ppsNanos + 1 - tsMin ppsNanos < 2 ^ 96 := by norm_num
  have hb := toBytes_in_range ppsNanos (tsMin ppsNanos + 1) h1 h96
  have hv : (tsMin ppsNanos + 1 - tsMin ppsNanos).toNat = 1 := by omega
  rw [hv] at hb
  refine ⟨?_, hb⟩
  rw [hb]
  unfold specTopBytes
  dsimp only
  rw [hv]
  decide

/-- **C5 (amended)**: for every valid timestamp, `to_bytes` returns the
12 *low-order* bytes of the 16-byte big-endian `u128` form of
`parts − MIN` — equivalently, the 12-byte big-endian representation of
`parts − MIN`, which fits in 96 bits (the dropped top 4 bytes are zero). -/
theorem c5_to_bytes_low_order (pps : Nat) (parts : Int)
    (hpps : pps = ppsNanos ∨ pps = ppsMicros)
    (h1 : tsMin pps ≤ parts) (h2 : parts ≤ tsMax pps) :
    Timestamp.toBytes pps ⟨parts⟩ = beBytes 12 ((parts - tsMin pps).toNat)
    ∧ Timestamp.toBytes pps ⟨parts⟩
        = (beBytes 16 ((parts - tsMin pps).toNat)).drop 4 := by
  have h96 := (ts_range_bound pps parts hpps h1 h2).2
  refine ⟨toBytes_in_range pps parts h1 h96, ?_⟩
  rw [toBytes_in_range pps parts h1 h96, beBytes_add 4 12]
  exact (drop_length_append _ _ 4 (beBytes_length 4 _)).symm

/-- Witness for the amended C5 at the nanosecond timestamp `MIN + 1`. -/
theorem c5_to_bytes_low_order_witness :
    Timestamp.toBytes ppsNanos ⟨tsMin ppsNanos + 1⟩
        = beBytes 12 ((tsMin ppsNanos + 1 - tsMin ppsNanos).toNat)
    ∧ Timestamp.toBytes ppsNanos ⟨tsMin ppsNanos + 1⟩
        = (beBytes 16 ((tsMin ppsNanos + 1 - tsMin ppsNanos).toNat)).drop 4 :=
  c5_to_bytes_low_order ppsNanos (tsMin ppsNanos + 1) (Or.inl rfl)
    (by omega) (by rw [tsMin_nanos, tsMax_nanos]; norm_num)

/-- **C6**: every timestamp whose parts lie in `[MIN, MAX]` round-trips
through `to_bytes` followed by `from_bytes` (both timestamp types). -/
theorem c6_timestamp_byte_roundtrip (pps : Nat) (parts : Int)
    (hpps : pps = ppsNanos ∨ pps = ppsMicros)
    (h1 : tsMin pps ≤ parts) (h2 : parts ≤ tsMax pps) :
    Timestamp.fromBytes pps (Timestamp.toBytes pps ⟨parts⟩) = .ok ⟨parts⟩ := by
  have h96 := (ts_range_bound pps parts hpps h1 h2).2
  rw [toBytes_in_range pps parts h1 h96]
  unfold Timestamp.fromBytes
  rw [beBytesToNat_replicate_zero_append, beBytesToNat_beBytes]
  have hlt : (parts - tsMin pps).toNat < 256 ^ 12 := by
    have : (256 : Nat) ^ 12 = 2 ^ 96 := by norm_num
    omega
  rw [Nat.mod_eq_of_lt hlt]
  have hcast : ((parts - tsMin pps).toNat : Int) = parts - tsMin pps := by omega
  rw [wrap128_eq_self]
  · rw [hcast]
    have harg : parts - tsMin pps + tsMin pps = parts := by ring
    rw [harg]
    unfold Timestamp.new
    rw [if_neg (by omega)]
  · rw [hcast]
    constructor
    · omega
    · calc parts - tsMin pps < 2 ^ 96 := h96
        _ < 2 ^ 127 := by norm_num

/-- Witness for C6 at the two boundary instants `MIN` and `MAX` of the
nanosecond type. -/
theorem c6_timestamp_byte_roundtrip_witness :
    Timestamp.fromBytes ppsNanos (Timestamp.toBytes ppsNanos ⟨tsMin ppsNanos⟩)
        = .ok ⟨tsMin ppsNanos⟩
    ∧ Timestamp.fromBytes ppsNanos (Timestamp.toBytes ppsNanos ⟨tsMax ppsNanos⟩)
        = .ok ⟨tsMax ppsNanos⟩ :=
  ⟨c6_timestamp_byte_roundtrip ppsNanos (tsMin ppsNanos) (Or.inl rfl)
      le_rfl (by rw [tsMin_nanos, tsMax_nanos]; norm_num),
    c6_timestamp_byte_roundtrip ppsNanos (tsMax ppsNanos) (Or.inl rfl)
      (by rw [tsMin_nanos, tsMax_nanos]; norm_num) le_rfl⟩

/-- **C7**: `MIN = parts_per_sec · i64::MIN` and
`MAX = parts_per_sec · (i64::MAX + 1) − 1`; `new(parts)` returns an
`InvalidArgument` error exactly when `parts` lies outside `[MIN, MAX]`, and
otherwise returns the timestamp holding exactly those parts. -/
theorem c7_timestamp_new_bounds (pps : Nat) (parts : Int) :
    tsMin pps = (pps : Int) * i64Min
    ∧ tsMax pps = (pps : Int) * (i64Max + 1) - 1
    ∧ ((∃ msg, Timestamp.new pps parts = .error (.invalidArgument msg))
        ↔ (parts < tsMin pps ∨ parts > tsMax pps))
    ∧ (tsMin pps ≤ parts → parts ≤ tsMax pps →
        Timestamp.new pps parts = .ok ⟨parts⟩) := by
  refine ⟨rfl, rfl, ?_, ?_⟩
  · constructor
    · intro ⟨msg, hmsg⟩
      by_contra hout
      rw [Timestamp.new, if_neg (by omega)] at hmsg
      exact Except.noConfusion hmsg
    · intro h
      refine ⟨tsInvalidMsg pps parts, ?_⟩
      rw [Timestamp.new, if_pos (by omega)]
  · intro hlo hhi
    rw [Timestamp.new, if_neg (by omega)]

/-- Witness for C7 (nanosecond type): `new` accepts parts `0` and rejects
`MAX + 1`. -/
theorem c7_timestamp_new_bounds_witness :
    Timestamp.new ppsNanos 0 = .ok ⟨0⟩
    ∧ ((∃ msg, Timestamp.new ppsNanos (tsMax ppsNanos + 1)
          = .error (.invalidArgument msg))
        ↔ (tsMax ppsNanos + 1 < tsMin ppsNanos
            ∨ tsMax ppsNanos + 1 > tsMax ppsNanos)) :=
  ⟨(c7_timestamp_new_bounds ppsNanos 0).2.2.2 (by rw [tsMin_nanos]; norm_num)
      (by rw [tsMax_nanos]; norm_num),
    (c7_timestamp_new_bounds ppsNanos (tsMax ppsNanos + 1)).2.2.1⟩

/-- **C10**: `from_signed` is total and performs no range validation; it
stores the given `i128` directly, `to_signed` recovers it, and for any
signed value outside `[MIN, MAX]` the resulting timestamp is one that the
constructor `new` would reject with `InvalidArgument`. -/
theorem c10_from_signed_unchecked (pps : Nat) (s : Int) :
    Timestamp.fromSigned s = ⟨s⟩
    ∧ Timestamp.toSigned (Timestamp.fromSigned s) = s
    ∧ ((s < tsMin pps ∨ s > tsMax pps) →
        Timestamp.new pps s
          = .error (.invalidArgument (tsInvalidMsg pps s))) := by
  refine ⟨rfl, rfl, ?_⟩
  intro h
  rw [Timestamp.new, if_pos (by omega)]

/-- Witness for C10: the out-of-range signed value `MAX + 1` (nanosecond
type) passes through `from_signed`/`to_signed` although `new` rejects it. -/
theorem c10_from_signed_unchecked_witness :
    Timestamp.toSigned (Timestamp.fromSigned (tsMax ppsNanos + 1))
        = tsMax ppsNanos + 1
    ∧ Timestamp.new ppsNanos (tsMax ppsNanos + 1)
        = .error (.invalidArgument (tsInvalidMsg ppsNanos (tsMax ppsNanos + 1))) :=
  ⟨(c10_from_signed_unchecked ppsNanos (tsMax ppsNanos + 1)).2.1,
    (c10_from_signed_unchecked ppsNanos (tsMax ppsNanos + 1)).2.2
      (by right; omega)⟩

/-! ## Format constants

Modelled from the spec: §4.4/§6 name four fixed-width constants.  The spec's
concrete scenario 1 pins `BITS_TO_ENCODE_N_ENTRIES = 24` and
`BITS_TO_ENCODE_N_PREFIXES = 4`; it gives no numeric value for the other
two, so representative values are chosen — no proof below depends on the
particular numbers. -/

/-- Modelled from the spec: width of the entry count `n` (24 bits per the
spec's scenario 1). -/
def BITS_TO_ENCODE_N_ENTRIES : Nat := 24

/-- Modelled from the spec: width of `compressed_body_size` (value not
pinned by the spec; 32 chosen). -/
def BITS_TO_ENCODE_COMPRESSED_BODY_SIZE : Nat := 32

/-- Modelled from the spec: width of the prefix-row count (4 bits per the
spec's scenario 1). -/
def BITS_TO_ENCODE_N_PREFIXES : Nat := 4

/-- Modelled from the spec: width of a run-length jumpstart value (value not
pinned by the spec; 5 chosen). -/
def BITS_TO_ENCODE_JUMPSTART : Nat := 5

/-- Modelled from the spec: the file-header flags the chunk layer consumes
(§6): `delta_encoding_order ∈ [0, 7]`, `use_gcds`, and the width function
`bits_to_encode_code_len()` (a per-file constant). -/
structure Flags : Type where
  deltaEncodingOrder : Nat
  useGcds : Bool
  bitsToEncodeCodeLen : Nat
  deriving DecidableEq, Repr

/-- Modelled from the spec: `bits_to_encode_count(n) = ceil(log2(n + 1))`,
the minimum width representing any count in `[0, n]` — the bit length of
`n`. -/
def bitsToEncodeCount (n : Nat) : Nat := bitsUsed n

/-- `bits_to_encode_count` is wide enough for every count `≤ n`. -/
theorem bitsToEncodeCount_wide (n c : Nat) (h : c ≤ n) :
    c < 2 ^ bitsToEncodeCount n :=
  lt_of_le_of_lt h (bitsUsed_lt n)

/-! ## NumberLike as bundled data

The Rust code is generic over a `NumberLike` capability; the chunk layer
uses the physical bit width, the unsigned map, raw-bit (de)serialization
(`write_to` / `read_from`) and `Display`.  `T::Unsigned` values are embedded
as `Nat` below `2^unsignedBits`. -/

/-- A `NumberLike` implementation, bundled as data. -/
structure NumImpl (α : Type) : Type where
  physicalBits : Nat
  unsignedBits : Nat
  toUnsigned : α → Nat
  toBits : α → List Bool
  fromBits : List Bool → QResult α
  display : α → String

/-- `T::read_from(reader)`: read `PHYSICAL_BITS` raw bits and rebuild the
value; a failure of the value constructor propagates. -/
def readFrom {α : Type} (I : NumImpl α) (s : List Bool) :
    QResult (α × List Bool) := do
  let p ← readBits I.physicalBits s
  let x ← I.fromBits p.1
  pure (x, p.2)

/-- The structural laws of a `NumberLike` implementation used by the
round-trip proofs. -/
structure NumImpl.Lawful {α : Type} (I : NumImpl α) : Prop where
  toBits_length : ∀ x, (I.toBits x).length = I.physicalBits
  toUnsigned_lt : ∀ x, I.toUnsigned x < 2 ^ I.unsignedBits

/-- `x` serializes losslessly: `from_bytes (to_bytes x) = Ok(x)`.  (For
timestamps this holds exactly for parts in `[MIN, MAX]`.) -/
def NumImpl.Good {α : Type} (I : NumImpl α) (x : α) : Prop :=
  I.fromBits (I.toBits x) = .ok x

theorem readFrom_toBits {α : Type} (I : NumImpl α) (hI : I.Lawful) (x : α)
    (hx : I.Good x) (r : List Bool) :
    readFrom I (I.toBits x ++ r) = .ok (x, r) := by
  unfold NumImpl.Good at hx
  rw [readFrom, readBits_exact I.physicalBits _ r (hI.toBits_length x)]
  simp [hx, Bind.bind, Except.bind, Functor.map, Except.map, pure, Except.pure]

/-! ## GCD coding (Modelled from the spec: §4.3) -/

/-- Modelled from the spec: a GCD bounded by `upper_bound` is coded in
`ceil(log2(upper_bound + 1))` bits — the bit length of `upper_bound`. -/
def gcdBits (ub : Nat) : Nat := bitsUsed ub

/-- Modelled from the spec: `write_gcd(upper_bound, value, writer)`. -/
def writeGcdBits (ub v : Nat) : List Bool := natBits (gcdBits ub) v

/-- Modelled from the spec: `read_gcd(upper_bound, reader)`.  A range with a
single possible offset (`upper_bound = 0`) occupies zero bits and its only
legal gcd is `1` (spec invariant `gcd ≥ 1`), which the reader reconstructs.
§4.3 describes no divisibility validation and `parse_prefixes` performs
none. -/
def readGcd (ub : Nat) (s : List Bool) : QResult (Nat × List Bool) :=
  (readUsize (gcdBits ub) s).map (fun p => (if ub = 0 then 1 else p.1, p.2))

theorem readGcd_writeGcdBits (ub v : Nat) (r : List Bool)
    (h : v < 2 ^ gcdBits ub ∨ ub = 0) :
    readGcd ub (writeGcdBits ub v ++ r) = .ok ((if ub = 0 then 1 else v), r) := by
  by_cases hub : ub = 0
  · subst hub
    have h0 : gcdBits 0 = 0 := rfl
    simp [readGcd, writeGcdBits, h0, readUsize, readBits, natBits, bitsToNat,
      Except.map]
  · have hv : v < 2 ^ gcdBits ub := h.resolve_right hub
    rw [readGcd, writeGcdBits, readUsize_natBits (gcdBits ub) v r hv]
    simp [Except.map, if_neg hub]

/-- A gcd legal for range `ub` fits in the `gcdBits ub` field. -/
theorem gcd_fits (ub v : Nat) (hv : v ≤ ub) : v < 2 ^ gcdBits ub :=
  lt_of_le_of_lt hv (bitsUsed_lt ub)

/-! ## Prefix rows and chunk metadata (`chunk_metadata.rs`) -/

/-- `Prefix<T>`: one row of the prefix table, with the fields
`parse_prefixes` constructs (`count`, `code`, `lower`, `upper`,
`run_len_jumpstart`, `gcd`; the zero-sized `phantom` is omitted). -/
structure PrefixRow (α : Type) : Type where
  count : Nat
  code : List Bool
  lower : α
  upper : α
  runLenJumpstart : Option Nat
  gcd : Nat
  deriving DecidableEq, Repr

/-- Modelled from the spec: `common_gcd_for_chunk_meta(prefixes)` returns
`Some(g)` iff every row's gcd is non-zero and all rows share the single
common gcd value `g`, where a row whose range holds only one possible offset
(`to_unsigned(upper) == to_unsigned(lower)`) contributes no constraint;
otherwise `None`. -/
def commonGcdForChunkMeta {α : Type} (I : NumImpl α)
    (ps : List (PrefixRow α)) : Option Nat :=
  if ps.all (fun p => p.gcd != 0) then
    match (ps.filter
        (fun p => I.toUnsigned p.upper != I.toUnsigned p.lower)).map PrefixRow.gcd with
    | [] => none
    | g :: gs => if gs.all (fun x => x == g) then some g else none
  else none

/-- `DeltaMoments<T>`: the `delta_encoding_order` initial moments, values of
`T::Signed`. -/
structure DeltaMoments (σ : Type) : Type where
  moments : List σ
  deriving DecidableEq, Repr

/-- Modelled from the spec: §4.5 — `DeltaMoments::parse_from` reads
`delta_encoding_order` values of `T::Signed`, each as raw physical bits;
parsing fails if any moment is outside its domain. -/
def parseDeltaMoments {σ : Type} (S : NumImpl σ) :
    Nat → List Bool → QResult (DeltaMoments σ × List Bool)
  | 0, s => .ok (⟨[]⟩, s)
  | k + 1, s => do
    let p ← readFrom S s
    let q ← parseDeltaMoments S k p.2
    pure (⟨p.1 :: q.1.moments⟩, q.2)

/-- Modelled from the spec: §4.5 — `DeltaMoments::write_to` writes each
moment as raw physical bits. -/
def writeDeltaMomentsBits {σ : Type} (S : NumImpl σ) (dm : DeltaMoments σ) :
    List Bool :=
  (dm.moments.map S.toBits).flatten

/-- The jumpstart step of the row loop (lines 94–98): one flag bit was read
as `b`; if set, read the jumpstart value. -/
def parseJumpstart (b : Bool) (s : List Bool) :
    QResult (Option Nat × List Bool) :=
  if b then
    (readUsize BITS_TO_ENCODE_JUMPSTART s).map (fun pv => (some pv.1, pv.2))
  else pure (none, s)

/-- The gcd step of the row loop (lines 99–103): the declared common gcd if
one is in effect, otherwise a per-row gcd read against `upper - lower`. -/
def parseRowGcd {α : Type} (I : NumImpl α) (maybeCommonGcd : Option Nat)
    (lower upper : α) (s : List Bool) : QResult (Nat × List Bool) :=
  match maybeCommonGcd with
  | some g => pure (g, s)
  | none => readGcd (I.toUnsigned upper - I.toUnsigned lower) s

/-- The row-loop body of `parse_prefixes` (chunk_metadata.rs lines 79–113):
count, lower, upper (with the `lower > upper` corruption check), code
length, code, optional jumpstart, then the gcd (the declared common one, or
a per-row field when no common gcd is in effect). -/
def parseOneRow {α : Type} (I : NumImpl α) (bcl bcount : Nat)
    (maybeCommonGcd : Option Nat) (s : List Bool) :
    QResult (PrefixRow α × List Bool) := do
  let pc ← readUsize bcount s
  let pl ← readFrom I pc.2
  let pu ← readFrom I pl.2
  if I.toUnsigned pl.1 > I.toUnsigned pu.1 then
    throw (.corruption ("prefix lower bound " ++ I.display pl.1 ++
      " may not be greater than upper bound " ++ I.display pu.1))
  else do
    let pcl ← readUsize bcl pu.2
    let pcode ← readBits pcl.1 pcl.2
    let pj ← readOne pcode.2
    let pjump ← parseJumpstart pj.1 pj.2
    let pg ← parseRowGcd I maybeCommonGcd pl.1 pu.1 pjump.2
    pure (⟨pc.1, pcode.1, pl.1, pu.1, pjump.1, pg.1⟩, pg.2)

/-- The `for _ in 0..n_pref` loop of `parse_prefixes`. -/
def parseRows {α : Type} (I : NumImpl α) (bcl bcount : Nat)
    (maybeCommonGcd : Option Nat) :
    Nat → List Bool → QResult (List (PrefixRow α) × List Bool)
  | 0, s => .ok ([], s)
  | k + 1, s => do
    let p ← parseOneRow I bcl bcount maybeCommonGcd s
    let q ← parseRows I bcl bcount maybeCommonGcd k p.2
    pure (p.1 :: q.1, q.2)

/-- The common-GCD block of `parse_prefixes` (lines 70–78): when `use_gcds`
is on, one flag bit then (if set) the common gcd against
`T::Unsigned::MAX`; when off, `T::Unsigned::ONE`. -/
def parseGcdBlock {α : Type} (I : NumImpl α) (useGcds : Bool)
    (s : List Bool) : QResult (Option Nat × List Bool) :=
  if useGcds then do
    let pb ← readOne s
    if pb.1 then
      (readGcd (2 ^ I.unsignedBits - 1) pb.2).map (fun pg => (some pg.1, pg.2))
    else pure (none, pb.2)
  else pure (some 1, s)

/-- `parse_prefixes` (chunk_metadata.rs lines 61–115): row count, the
optional chunk-wide common-GCD block (`T::Unsigned::ONE` when `use_gcds` is
off), then the rows. -/
def parsePrefixes {α : Type} (I : NumImpl α) (flags : Flags) (n : Nat)
    (s : List Bool) : QResult (List (PrefixRow α) × List Bool) := do
  let pn ← readUsize BITS_TO_ENCODE_N_PREFIXES s
  let pmc ← parseGcdBlock I flags.useGcds pn.2
  parseRows I flags.bitsToEncodeCodeLen (bitsToEncodeCount n) pmc.1 pn.1 pmc.2

/-- The bits one row contributes in `write_prefixes` (lines 136–154). -/
def writeOneRowBits {α : Type} (I : NumImpl α) (bcl bcount : Nat)
    (writePerRowGcd : Bool) (p : PrefixRow α) : List Bool :=
  natBits bcount p.count ++ I.toBits p.lower ++ I.toBits p.upper ++
  natBits bcl p.code.length ++ p.code ++
  (match p.runLenJumpstart with
   | none => [false]
   | some j => true :: natBits BITS_TO_ENCODE_JUMPSTART j) ++
  (if writePerRowGcd then
    writeGcdBits (I.toUnsigned p.upper - I.toUnsigned p.lower) p.gcd
  else [])

/-- The writer's `maybe_common_gcd` value (lines 126–135): the chunk-wide
common GCD when `use_gcds` is on, `T::Unsigned::ONE` otherwise.  The parser
reconstructs the same value from the common-GCD block. -/
def chunkGcd {α : Type} (I : NumImpl α) (flags : Flags)
    (ps : List (PrefixRow α)) : Option Nat :=
  if flags.useGcds then commonGcdForChunkMeta I ps else some 1

/-- `write_prefixes` (lines 117–155), as the bit string it appends: the row
count, the common-GCD block when `use_gcds` is on, then the rows (with
per-row gcds exactly when no common gcd was declared). -/
def writePrefixesBits {α : Type} (I : NumImpl α) (ps : List (PrefixRow α))
    (flags : Flags) (n : Nat) : List Bool :=
  natBits BITS_TO_ENCODE_N_PREFIXES ps.length ++
  (if flags.useGcds then
    (chunkGcd I flags ps).isSome ::
      (match chunkGcd I flags ps with
       | some g => writeGcdBits (2 ^ I.unsignedBits - 1) g
       | none => [])
  else []) ++
  (ps.map (writeOneRowBits I flags.bitsToEncodeCodeLen (bitsToEncodeCount n)
    (chunkGcd I flags ps).isNone)).flatten

/-- `PrefixMetadata<T>`: `Simple` (rows over `T`) for delta order 0, `Delta`
(rows over `T::Signed` plus initial delta moments) otherwise. -/
inductive PrefixMetadata (α σ : Type) : Type where
  | simple (prefixes : List (PrefixRow α))
  | delta (prefixes : List (PrefixRow σ)) (deltaMoments : DeltaMoments σ)
  deriving DecidableEq, Repr

/-- `ChunkMetadata<T>` (the zero-sized `phantom` marker is omitted). -/
structure ChunkMetadata (α σ : Type) : Type where
  n : Nat
  compressedBodySize : Nat
  prefixMetadata : PrefixMetadata α σ
  deriving DecidableEq, Repr

/-- The bits `write_to` appends before its final `finish_byte`
(chunk_metadata.rs lines 183–195): `n`, `compressed_body_size`, then per
variant the delta moments and the prefix table. -/
def writeToBits {α σ : Type} (I : NumImpl α) (S : NumImpl σ) (flags : Flags)
    (m : ChunkMetadata α σ) : List Bool :=
  natBits BITS_TO_ENCODE_N_ENTRIES m.n ++
  natBits BITS_TO_ENCODE_COMPRESSED_BODY_SIZE m.compressedBodySize ++
  (match m.prefixMetadata with
   | .simple ps => writePrefixesBits I ps flags m.n
   | .delta ps dm => writeDeltaMomentsBits S dm ++ writePrefixesBits S ps flags m.n)

/-- `ChunkMetadata::write_to(writer, flags)`: append the metadata bits to
the writer's buffer, then `finish_byte`. -/
def writeTo {α σ : Type} (I : NumImpl α) (S : NumImpl σ) (flags : Flags)
    (m : ChunkMetadata α σ) (buf : List Bool) : List Bool :=
  finishByte (buf ++ writeToBits I S flags m)

/-- `ChunkMetadata::parse_from(reader, flags)` (lines 158–181). -/
def parseFrom {α σ : Type} (I : NumImpl α) (S : NumImpl σ) (flags : Flags)
    (s : List Bool) : QResult (ChunkMetadata α σ × List Bool) := do
  let pn ← readUsize BITS_TO_ENCODE_N_ENTRIES s
  let pb ← readUsize BITS_TO_ENCODE_COMPRESSED_BODY_SIZE pn.2
  if flags.deltaEncodingOrder = 0 then do
    let pp ← parsePrefixes I flags pn.1 pb.2
    pure (⟨pn.1, pb.1, .simple pp.1⟩, pp.2)
  else do
    let pd ← parseDeltaMoments S flags.deltaEncodingOrder pb.2
    let pp ← parsePrefixes S flags pn.1 pd.2
    pure (⟨pn.1, pb.1, .delta pp.1 pd.1⟩, pp.2)

/-- `update_write_compressed_body_size(writer, bit_idx)` (lines 198–208):
overwrite the size field `BITS_TO_ENCODE_N_ENTRIES` bits after the recorded
pre-write cursor. -/
def updateWriteCompressedBodySize {α σ : Type} (m : ChunkMetadata α σ)
    (buf : List Bool) (bitIdx : Nat) : List Bool :=
  overwriteUsize (bitIdx + BITS_TO_ENCODE_N_ENTRIES) m.compressedBodySize
    BITS_TO_ENCODE_COMPRESSED_BODY_SIZE buf

/-! ## The timestamp `NumberLike` instance

The concrete instance used by witnesses: `PHYSICAL_BITS = 96`,
`Unsigned = u128`.  `to_bytes` emits 12 big-endian bytes; concatenated
MSB-first they are exactly the 96-bit big-endian form of
`(parts − MIN) mod 2^96`, which is how `toBits` states it. -/
def tsNumImpl (pps : Nat) : NumImpl Timestamp where
  physicalBits := 96
  unsignedBits := 128
  toUnsigned := Timestamp.toUnsigned
  toBits t := natBits 96 (((t.parts - tsMin pps) % (2 ^ 128 : Int)).toNat)
  fromBits bs := Timestamp.new pps (wrap128 ((bitsToNat bs : Int)) + tsMin pps)
  display := Timestamp.display pps

theorem tsNumImpl_lawful (pps : Nat) : (tsNumImpl pps).Lawful := by
  constructor
  · intro x
    exact natBits_length 96 _
  · intro x
    simp only [tsNumImpl]
    have e128N : (2 : Nat) ^ 128 = 340282366920938463463374607431768211456 := by norm_num
    have e128 : (2 : Int) ^ 128 = 340282366920938463463374607431768211456 := by norm_num
    unfold Timestamp.toUnsigned
    have h1 : 0 ≤ (x.parts - i128Min) % (2 ^ 128 : Int) :=
      Int.emod_nonneg _ (by norm_num)
    have h2 : (x.parts - i128Min) % (2 ^ 128 : Int) < 2 ^ 128 :=
      Int.emod_lt_of_pos _ (by norm_num)
    rw [e128N, e128]
    rw [e128] at h1 h2
    omega

/-- A timestamp with valid parts serializes losslessly through the raw-bit
form (`Good`). -/
theorem tsNumImpl_good (pps : Nat) (parts : Int)
    (hpps : pps = ppsNanos ∨ pps = ppsMicros)
    (h1 : tsMin pps ≤ parts) (h2 : parts ≤ tsMax pps) :
    (tsNumImpl pps).Good ⟨parts⟩ := by
  obtain ⟨hv0, hv96⟩ := ts_range_bound pps parts hpps h1 h2
  have e96 : (2 : Int) ^ 96 = 79228162514264337593543950336 := by norm_num
  have e96N : (2 : Nat) ^ 96 = 79228162514264337593543950336 := by norm_num
  unfold NumImpl.Good
  simp only [tsNumImpl]
  have hmod : (parts - tsMin pps) % (2 ^ 128 : Int) = parts - tsMin pps := by
    apply Int.emod_eq_of_lt hv0
    calc parts - tsMin pps < 2 ^ 96 := hv96
      _ < 2 ^ 128 := by norm_num
  rw [hmod, bitsToNat_natBits]
  have hlt : (parts - tsMin pps).toNat < 2 ^ 96 := by
    rw [e96N]
    rw [e96] at hv96
    omega
  rw [Nat.mod_eq_of_lt hlt]
  have hcast : (((parts - tsMin pps).toNat : Int)) = parts - tsMin pps := by omega
  rw [hcast, wrap128_eq_self _ ⟨by omega, by
    calc parts - tsMin pps < 2 ^ 96 := hv96
      _ < 2 ^ 127 := by norm_num⟩]
  rw [show parts - tsMin pps + tsMin pps = parts from by ring]
  unfold Timestamp.new
  rw [if_neg (by omega)]

/-! ## C2: the layout written by `write_to` -/

/-- Rearranged overwrite: back-patching the `w`-bit field that sits right
after prefix `buf ++ a` replaces exactly that field. -/
theorem overwrite_slice (buf a z b : List Bool) (v w : Nat)
    (hz : z.length = w) :
    overwriteUsize (buf.length + a.length) v w (buf ++ a ++ z ++ b)
      = buf ++ a ++ natBits w v ++ b := by
  unfold overwriteUsize
  have ht : (buf ++ a ++ z ++ b).take (buf.length + a.length) = buf ++ a := by
    rw [show buf ++ a ++ z ++ b = (buf ++ a) ++ (z ++ b) by simp]
    exact take_length_append _ _ _ (by simp)
  have hd : (buf ++ a ++ z ++ b).drop (buf.length + a.length + w) = b := by
    rw [show buf ++ a ++ z ++ b = ((buf ++ a) ++ z) ++ b by simp]
    exact drop_length_append _ _ _ (by simp [hz]; try omega)
  rw [ht, hd]

theorem finishByte_align (L : List Bool) : (finishByte L).length % 8 = 0 := by
  simp only [finishByte, List.length_append, List.length_replicate]
  omega

set_option maxRecDepth 10000 in
/-- **C2 counterexample**: `write_to` decides whether to emit delta moments
from the metadata's variant, not from `delta_encoding_order`.  Called with
order-0 flags on a `Delta`-variant value it still emits the moments, so its
output differs from the moments-omitted layout the claim requires for
`delta_encoding_order = 0` (whose table over the empty row list writes the
same bits for either element type). -/
theorem c2_counterexample :
    writeTo (tsNumImpl ppsNanos) (tsNumImpl ppsNanos)
        ⟨0, false, 1⟩ ⟨0, 0, .delta [] ⟨[⟨0⟩]⟩⟩ []
      ≠ finishByte (natBits BITS_TO_ENCODE_N_ENTRIES 0
          ++ natBits BITS_TO_ENCODE_COMPRESSED_BODY_SIZE 0
          ++ writePrefixesBits (tsNumImpl ppsNanos)
              ([] : List (PrefixRow Timestamp)) ⟨0, false, 1⟩ 0) := by
  decide

/-- **C2 (amended)**: for every metadata value, flags, and prior buffer
content, `write_to` appends `n` (in `BITS_TO_ENCODE_N_ENTRIES` bits), then
`compressed_body_size` (in `BITS_TO_ENCODE_COMPRESSED_BODY_SIZE` bits), then
the delta moments if and only if the value is in the `Delta` variant (for
metadata consistent with the flags, exactly when
`delta_encoding_order ≥ 1`), then the prefix table (over `T` for `Simple`,
over `T::Signed` for `Delta`), and finally zero-pads so the writer ends at
a byte boundary. -/
theorem c2_write_to_layout {α σ : Type} (I : NumImpl α) (S : NumImpl σ)
    (flags : Flags) (m : ChunkMetadata α σ) (buf : List Bool) :
    ∃ (momentsBits tableBits : List Bool) (pad : Nat),
      writeTo I S flags m buf
          = buf ++ natBits BITS_TO_ENCODE_N_ENTRIES m.n
            ++ natBits BITS_TO_ENCODE_COMPRESSED_BODY_SIZE m.compressedBodySize
            ++ momentsBits ++ tableBits ++ List.replicate pad false
      ∧ ((∃ ps, m.prefixMetadata = .simple ps ∧ momentsBits = []
            ∧ tableBits = writePrefixesBits I ps flags m.n)
        ∨ (∃ ps dm, m.prefixMetadata = .delta ps dm
            ∧ momentsBits = writeDeltaMomentsBits S dm
            ∧ tableBits = writePrefixesBits S ps flags m.n))
      ∧ pad < 8
      ∧ (writeTo I S flags m buf).length % 8 = 0 := by
  obtain ⟨n, c, pm⟩ := m
  cases pm with
  | simple ps =>
      refine ⟨[], writePrefixesBits I ps flags n,
        (8 - (buf ++ writeToBits I S flags ⟨n, c, .simple ps⟩).length % 8) % 8,
        ?_, Or.inl ⟨ps, rfl, rfl, rfl⟩, by omega, finishByte_align _⟩
      rw [writeTo, finishByte]
      have hw : writeToBits I S flags ⟨n, c, .simple ps⟩
          = natBits BITS_TO_ENCODE_N_ENTRIES n
            ++ natBits BITS_TO_ENCODE_COMPRESSED_BODY_SIZE c
            ++ writePrefixesBits I ps flags n := rfl
      rw [hw]
      simp
  | delta ps dm =>
      refine ⟨writeDeltaMomentsBits S dm, writePrefixesBits S ps flags n,
        (8 - (buf ++ writeToBits I S flags ⟨n, c, .delta ps dm⟩).length % 8) % 8,
        ?_, Or.inr ⟨ps, dm, rfl, rfl, rfl⟩, by omega, finishByte_align _⟩
      rw [writeTo, finishByte]
      have hw : writeToBits I S flags ⟨n, c, .delta ps dm⟩
          = natBits BITS_TO_ENCODE_N_ENTRIES n
            ++ natBits BITS_TO_ENCODE_COMPRESSED_BODY_SIZE c
            ++ (writeDeltaMomentsBits S dm ++ writePrefixesBits S ps flags n) := rfl
      rw [hw]
      simp

/-! ## C9: back-patching the compressed body size -/

/-- **C9**: writing with `compressed_body_size = 0` from cursor `bit_idx`
(the length of the prior buffer contents) and then back-patching with the
final size `s` overwrites exactly the `BITS_TO_ENCODE_COMPRESSED_BODY_SIZE`
bits starting at `bit_idx + BITS_TO_ENCODE_N_ENTRIES`, leaves every other
bit unchanged, and yields the same buffer as writing with
`compressed_body_size = s` in the first place. -/
theorem c9_backpatch {α σ : Type} (I : NumImpl α) (S : NumImpl σ)
    (flags : Flags) (m : ChunkMetadata α σ) (buf : List Bool) (s : Nat)
    (hs : s < 2 ^ BITS_TO_ENCODE_COMPRESSED_BODY_SIZE) :
    updateWriteCompressedBodySize ⟨m.n, s, m.prefixMetadata⟩
        (writeTo I S flags ⟨m.n, 0, m.prefixMetadata⟩ buf) buf.length
      = writeTo I S flags ⟨m.n, s, m.prefixMetadata⟩ buf
    ∧ ∀ i : Nat,
        (i < buf.length + BITS_TO_ENCODE_N_ENTRIES
          ∨ buf.length + BITS_TO_ENCODE_N_ENTRIES
              + BITS_TO_ENCODE_COMPRESSED_BODY_SIZE ≤ i) →
        (updateWriteCompressedBodySize ⟨m.n, s, m.prefixMetadata⟩
            (writeTo I S flags ⟨m.n, 0, m.prefixMetadata⟩ buf) buf.length)[i]?
          = (writeTo I S flags ⟨m.n, 0, m.prefixMetadata⟩ buf)[i]? := by
  obtain ⟨n, c, pm⟩ := m
  dsimp only
  -- the table-and-moments bits; they do not depend on compressed_body_size
  have hB : ∃ B : List Bool, ∀ csize : Nat,
      writeToBits I S flags ⟨n, csize, pm⟩
        = natBits BITS_TO_ENCODE_N_ENTRIES n
          ++ natBits BITS_TO_ENCODE_COMPRESSED_BODY_SIZE csize ++ B := by
    cases pm with
    | simple ps => exact ⟨writePrefixesBits I ps flags n, fun csize => rfl⟩
    | delta ps dm =>
        exact ⟨writeDeltaMomentsBits S dm ++ writePrefixesBits S ps flags n,
          fun csize => rfl⟩
  obtain ⟨B, hB⟩ := hB
  set A := natBits BITS_TO_ENCODE_N_ENTRIES n with hA
  set Z := natBits BITS_TO_ENCODE_COMPRESSED_BODY_SIZE 0 with hZ
  set Sb := natBits BITS_TO_ENCODE_COMPRESSED_BODY_SIZE s with hSb
  have hAlen : A.length = BITS_TO_ENCODE_N_ENTRIES := natBits_length _ _
  have hZlen : Z.length = BITS_TO_ENCODE_COMPRESSED_BODY_SIZE := natBits_length _ _
  have hSblen : Sb.length = BITS_TO_ENCODE_COMPRESSED_BODY_SIZE := natBits_length _ _
  -- both writes produce the same zero-pad length
  have hpad : (buf ++ (A ++ Sb ++ B)).length = (buf ++ (A ++ Z ++ B)).length := by
    simp [hAlen, hZlen, hSblen]
  have hw0 : writeTo I S flags ⟨n, 0, pm⟩ buf
      = buf ++ A ++ Z
        ++ (B ++ List.replicate ((8 - (buf ++ (A ++ Z ++ B)).length % 8) % 8) false) := by
    rw [writeTo, hB 0, finishByte]
    simp
  have hws : writeTo I S flags ⟨n, s, pm⟩ buf
      = buf ++ A ++ Sb
        ++ (B ++ List.replicate ((8 - (buf ++ (A ++ Z ++ B)).length % 8) % 8) false) := by
    rw [writeTo, hB s, finishByte, hpad]
    simp
  have hupd : updateWriteCompressedBodySize ⟨n, s, pm⟩
      (writeTo I S flags ⟨n, 0, pm⟩ buf) buf.length
      = buf ++ A ++ natBits BITS_TO_ENCODE_COMPRESSED_BODY_SIZE s
        ++ (B ++ List.replicate ((8 - (buf ++ (A ++ Z ++ B)).length % 8) % 8) false) := by
    rw [updateWriteCompressedBodySize, hw0]
    dsimp only
    rw [show buf.length + BITS_TO_ENCODE_N_ENTRIES = buf.length + A.length by rw [hAlen]]
    exact overwrite_slice buf A Z _ s BITS_TO_ENCODE_COMPRESSED_BODY_SIZE hZlen
  constructor
  · rw [hupd, hws]
  · intro i hi
    rw [hupd, hw0]
    rcases hi with hi | hi
    · have hlt : i < (buf ++ A).length := by simp [hAlen]; omega
      rw [show buf ++ A ++ Sb ++ (B ++ List.replicate ((8 - (buf ++ (A ++ Z ++ B)).length % 8) % 8) false)
            = (buf ++ A) ++ (Sb ++ (B ++ List.replicate ((8 - (buf ++ (A ++ Z ++ B)).length % 8) % 8) false)) by simp,
          show buf ++ A ++ Z ++ (B ++ List.replicate ((8 - (buf ++ (A ++ Z ++ B)).length % 8) % 8) false)
            = (buf ++ A) ++ (Z ++ (B ++ List.replicate ((8 - (buf ++ (A ++ Z ++ B)).length % 8) % 8) false)) by simp]
      rw [List.getElem?_append_left hlt, List.getElem?_append_left hlt]
    · have hge1 : ((buf ++ A) ++ Sb).length ≤ i := by simp [hAlen, hSblen]; omega
      have hge2 : ((buf ++ A) ++ Z).length ≤ i := by simp [hAlen, hZlen]; omega
      have hlen12 : ((buf ++ A) ++ Sb).length = ((buf ++ A) ++ Z).length := by
        simp [hSblen, hZlen]
      rw [show buf ++ A ++ Sb ++ (B ++ List.replicate ((8 - (buf ++ (A ++ Z ++ B)).length % 8) % 8) false)
            = ((buf ++ A) ++ Sb) ++ (B ++ List.replicate ((8 - (buf ++ (A ++ Z ++ B)).length % 8) % 8) false) by simp,
          show buf ++ A ++ Z ++ (B ++ List.replicate ((8 - (buf ++ (A ++ Z ++ B)).length % 8) % 8) false)
            = ((buf ++ A) ++ Z) ++ (B ++ List.replicate ((8 - (buf ++ (A ++ Z ++ B)).length % 8) % 8) false) by simp]
      rw [List.getElem?_append_right hge1, List.getElem?_append_right hge2, hlen12]

/-- Witness for C9 at a concrete chunk: back-patching `123456` into a
metadata block written with a zero placeholder (after one byte of prior
buffer content) equals writing `123456` directly. -/
theorem c9_backpatch_witness :
    updateWriteCompressedBodySize
        (⟨1, 123456, .simple []⟩ : ChunkMetadata Timestamp Timestamp)
        (writeTo (tsNumImpl ppsNanos) (tsNumImpl ppsNanos) ⟨0, false, 1⟩
          ⟨1, 0, .simple []⟩ [true, false, true, false, true, false, true, false])
        (8 : Nat)
      = writeTo (tsNumImpl ppsNanos) (tsNumImpl ppsNanos) ⟨0, false, 1⟩
          ⟨1, 123456, .simple []⟩
          [true, false, true, false, true, false, true, false] :=
  (c9_backpatch (tsNumImpl ppsNanos) (tsNumImpl ppsNanos) ⟨0, false, 1⟩
    ⟨1, 123456, .simple []⟩ [true, false, true, false, true, false, true, false]
    123456 (by norm_num [BITS_TO_ENCODE_COMPRESSED_BODY_SIZE])).1

/-! ## C4: corruption on inverted prefix bounds -/

/-- Every prefix row of a successfully parsed metadata value has
`to_unsigned(lower) ≤ to_unsigned(upper)` (over the element type of its
variant). -/
def chunkRowsOrdered {α σ : Type} (I : NumImpl α) (S : NumImpl σ)
    (m : ChunkMetadata α σ) : Prop :=
  match m.prefixMetadata with
  | .simple ps => ∀ p ∈ ps, I.toUnsigned p.lower ≤ I.toUnsigned p.upper
  | .delta ps _ => ∀ p ∈ ps, S.toUnsigned p.lower ≤ S.toUnsigned p.upper

theorem parseOneRow_ok_ordered {α : Type} (I : NumImpl α) (bcl bcount : Nat)
    (mc : Option Nat) (s : List Bool) (p : PrefixRow α) (r : List Bool)
    (h : parseOneRow I bcl bcount mc s = .ok (p, r)) :
    I.toUnsigned p.lower ≤ I.toUnsigned p.upper := by
  unfold parseOneRow at h
  obtain ⟨pc, hpc, h⟩ := qbind_eq_ok h
  obtain ⟨pl, hpl, h⟩ := qbind_eq_ok h
  obtain ⟨pu, hpu, h⟩ := qbind_eq_ok h
  by_cases hord : I.toUnsigned pl.1 > I.toUnsigned pu.1
  · rw [if_pos hord] at h
    exact absurd h (fun hh => Except.noConfusion hh)
  · rw [if_neg hord] at h
    obtain ⟨pcl, hpcl, h⟩ := qbind_eq_ok h
    obtain ⟨pcode, hpcode, h⟩ := qbind_eq_ok h
    obtain ⟨pj, hpj, h⟩ := qbind_eq_ok h
    obtain ⟨pjump, hpjump, h⟩ := qbind_eq_ok h
    obtain ⟨pg, hpg, h⟩ := qbind_eq_ok h
    have hinj := Except.ok.inj h
    have hp : p = ⟨pc.1, pcode.1, pl.1, pu.1, pjump.1, pg.1⟩ :=
      (congrArg Prod.fst hinj).symm
    rw [hp]
    exact Nat.le_of_not_lt hord

theorem parseRows_ok_ordered {α : Type} (I : NumImpl α) (bcl bcount : Nat)
    (mc : Option Nat) :
    ∀ (k : Nat) (s : List Bool) (ps : List (PrefixRow α)) (r : List Bool),
      parseRows I bcl bcount mc k s = .ok (ps, r) →
      ∀ p ∈ ps, I.toUnsigned p.lower ≤ I.toUnsigned p.upper := by
  intro k
  induction k with
  | zero =>
      intro s ps r h p hp
      unfold parseRows at h
      have hps : ps = [] := (congrArg Prod.fst (Except.ok.inj h)).symm
      subst hps
      exact absurd hp (List.not_mem_nil p)
  | succ k ih =>
      intro s ps r h p hp
      unfold parseRows at h
      obtain ⟨q, hq, h⟩ := qbind_eq_ok h
      obtain ⟨qs, hqs, h⟩ := qbind_eq_ok h
      have hps : ps = q.1 :: qs.1 := (congrArg Prod.fst (Except.ok.inj h)).symm
      subst hps
      rcases List.mem_cons.mp hp with rfl | hmem
      · exact parseOneRow_ok_ordered I bcl bcount mc s q.1 q.2
          (by rw [hq])
      · exact ih q.2 qs.1 qs.2 (by rw [hqs]) p hmem

theorem parsePrefixes_ok_ordered {α : Type} (I : NumImpl α) (flags : Flags)
    (n : Nat) (s : List Bool) (ps : List (PrefixRow α)) (r : List Bool)
    (h : parsePrefixes I flags n s = .ok (ps, r)) :
    ∀ p ∈ ps, I.toUnsigned p.lower ≤ I.toUnsigned p.upper := by
  unfold parsePrefixes at h
  obtain ⟨pn, hpn, h⟩ := qbind_eq_ok h
  obtain ⟨pmc, hpmc, h⟩ := qbind_eq_ok h
  exact parseRows_ok_ordered I flags.bitsToEncodeCodeLen (bitsToEncodeCount n)
    pmc.1 pn.1 pmc.2 ps r h

/-- **C4**: `parse_from` rejects inverted prefix bounds.  First conjunct:
whenever the row parser has read a count, a lower bound, and an upper bound
with `to_unsigned(lower) > to_unsigned(upper)`, it returns a `Corruption`
error whose message is exactly
`"prefix lower bound {lower} may not be greater than upper bound {upper}"`
(so the message contains both offending values).  Second conjunct: whenever
`parse_from` succeeds, every row of the produced metadata satisfies
`to_unsigned(lower) ≤ to_unsigned(upper)` — no metadata value with an
inverted row is ever produced. -/
theorem c4_corruption_on_inverted_bounds {α σ : Type} (I : NumImpl α)
    (S : NumImpl σ) :
    (∀ (bcl bcount : Nat) (mc : Option Nat) (s s1 s2 s3 : List Bool)
        (cnt : Nat) (lower upper : α),
        readUsize bcount s = .ok (cnt, s1) →
        readFrom I s1 = .ok (lower, s2) →
        readFrom I s2 = .ok (upper, s3) →
        I.toUnsigned upper < I.toUnsigned lower →
        parseOneRow I bcl bcount mc s
          = .error (.corruption ("prefix lower bound " ++ I.display lower ++
              " may not be greater than upper bound " ++ I.display upper)))
    ∧ (∀ (flags : Flags) (s : List Bool) (m : ChunkMetadata α σ)
          (r : List Bool),
        parseFrom I S flags s = .ok (m, r) → chunkRowsOrdered I S m) := by
  constructor
  · intro bcl bcount mc s s1 s2 s3 cnt lower upper h1 h2 h3 h4
    unfold parseOneRow
    rw [h1, qbind_ok, h2, qbind_ok, h3, qbind_ok]
    rw [if_pos h4]
    rfl
  · intro flags s m r h
    unfold parseFrom at h
    obtain ⟨pn, hpn, h⟩ := qbind_eq_ok h
    obtain ⟨pb, hpb, h⟩ := qbind_eq_ok h
    by_cases hord : flags.deltaEncodingOrder = 0
    · rw [if_pos hord] at h
      obtain ⟨pp, hpp, h⟩ := qbind_eq_ok h
      have hm : m = ⟨pn.1, pb.1, .simple pp.1⟩ :=
        (congrArg Prod.fst (Except.ok.inj h)).symm
      subst hm
      exact parsePrefixes_ok_ordered I flags pn.1 pb.2 pp.1 pp.2 (by rw [hpp])
    · rw [if_neg hord] at h
      obtain ⟨pd, hpd, h⟩ := qbind_eq_ok h
      obtain ⟨pp, hpp, h⟩ := qbind_eq_ok h
      have hm : m = ⟨pn.1, pb.1, .delta pp.1 pd.1⟩ :=
        (congrArg Prod.fst (Except.ok.inj h)).symm
      subst hm
      exact parsePrefixes_ok_ordered S flags pn.1 pd.2 pp.1 pp.2 (by rw [hpp])

set_option maxRecDepth 10000 in
/-- Witness for C4: a concrete row whose lower bound (`MIN + 5` nanos)
exceeds its upper bound (`MIN`) draws the exact corruption message. -/
theorem c4_corruption_on_inverted_bounds_witness :
    parseOneRow (tsNumImpl ppsNanos) 1 0 none
        ((tsNumImpl ppsNanos).toBits ⟨tsMin ppsNanos + 5⟩
          ++ (tsNumImpl ppsNanos).toBits ⟨tsMin ppsNanos⟩)
      = .error (.corruption ("prefix lower bound "
          ++ (tsNumImpl ppsNanos).display ⟨tsMin ppsNanos + 5⟩
          ++ " may not be greater than upper bound "
          ++ (tsNumImpl ppsNanos).display ⟨tsMin ppsNanos⟩)) :=
  (c4_corruption_on_inverted_bounds (tsNumImpl ppsNanos) (tsNumImpl ppsNanos)).1
    1 0 none
    ((tsNumImpl ppsNanos).toBits ⟨tsMin ppsNanos + 5⟩
      ++ (tsNumImpl ppsNanos).toBits ⟨tsMin ppsNanos⟩)
    ((tsNumImpl ppsNanos).toBits ⟨tsMin ppsNanos + 5⟩
      ++ (tsNumImpl ppsNanos).toBits ⟨tsMin ppsNanos⟩)
    ((tsNumImpl ppsNanos).toBits ⟨tsMin ppsNanos⟩) [] 0
    ⟨tsMin ppsNanos + 5⟩ ⟨tsMin ppsNanos⟩
    (by decide) (by decide) (by decide) (by decide)

/-! ## C8: no gcd-divisibility validation -/

/-- **C8 (amended)**: the parser performs no divisibility validation of a
row's gcd against its range.  With a declared chunk-wide common gcd `g`, a
row whose reads succeed and whose bounds are ordered parses successfully
and stores `g` as its gcd — with no requirement that `g` divide
`upper − lower`. -/
theorem c8_no_gcd_divisibility_check {α : Type} (I : NumImpl α)
    (bcl bcount : Nat) (g : Nat) (s s1 s2 s3 s4 s5 s6 : List Bool)
    (cnt cl : Nat) (code : List Bool) (lower upper : α)
    (h1 : readUsize bcount s = .ok (cnt, s1))
    (h2 : readFrom I s1 = .ok (lower, s2))
    (h3 : readFrom I s2 = .ok (upper, s3))
    (h4 : ¬ I.toUnsigned lower > I.toUnsigned upper)
    (h5 : readUsize bcl s3 = .ok (cl, s4))
    (h6 : readBits cl s4 = .ok (code, s5))
    (h7 : readOne s5 = .ok (false, s6)) :
    parseOneRow I bcl bcount (some g) s
      = .ok (⟨cnt, code, lower, upper, none, g⟩, s6) := by
  unfold parseOneRow
  rw [h1, qbind_ok, h2, qbind_ok, h3, qbind_ok, if_neg h4, h5, qbind_ok,
    h6, qbind_ok, h7, qbind_ok]
  rfl

set_option maxRecDepth 10000 in
/-- **C8 counterexample**: a bitstream declaring the chunk-wide common gcd
`3` over a row whose range is `5` (which `3` does not divide) parses
successfully — `parse_from` returns the metadata with `gcd = 3` instead of
a `Corruption` error. -/
theorem c8_counterexample :
    parseFrom (tsNumImpl ppsNanos) (tsNumImpl ppsNanos) ⟨0, true, 1⟩
        (natBits 24 0 ++ natBits 32 0 ++ natBits 4 1 ++ [true]
          ++ natBits 128 3
          ++ (tsNumImpl ppsNanos).toBits ⟨tsMin ppsNanos⟩
          ++ (tsNumImpl ppsNanos).toBits ⟨tsMin ppsNanos + 5⟩
          ++ natBits 1 1 ++ [false] ++ [false])
      = .ok (⟨0, 0, .simple [⟨0, [false], ⟨tsMin ppsNanos⟩,
          ⟨tsMin ppsNanos + 5⟩, none, 3⟩]⟩, [])
    ∧ ¬ (3 ∣ ((tsNumImpl ppsNanos).toUnsigned ⟨tsMin ppsNanos + 5⟩
          - (tsNumImpl ppsNanos).toUnsigned ⟨tsMin ppsNanos⟩)) := by
  constructor
  · decide
  · decide

set_option maxRecDepth 10000 in
/-- Witness for the amended C8 at a concrete row (common gcd `3`, range
`5`). -/
theorem c8_no_gcd_divisibility_check_witness :
    parseOneRow (tsNumImpl ppsNanos) 1 0 (some 3)
        ((tsNumImpl ppsNanos).toBits ⟨tsMin ppsNanos⟩
          ++ ((tsNumImpl ppsNanos).toBits ⟨tsMin ppsNanos + 5⟩
            ++ [true, false, false]))
      = .ok (⟨0, [false], ⟨tsMin ppsNanos⟩, ⟨tsMin ppsNanos + 5⟩, none, 3⟩,
          []) :=
  c8_no_gcd_divisibility_check (tsNumImpl ppsNanos) 1 0 3
    ((tsNumImpl ppsNanos).toBits ⟨tsMin ppsNanos⟩
      ++ ((tsNumImpl ppsNanos).toBits ⟨tsMin ppsNanos + 5⟩
        ++ [true, false, false]))
    ((tsNumImpl ppsNanos).toBits ⟨tsMin ppsNanos⟩
      ++ ((tsNumImpl ppsNanos).toBits ⟨tsMin ppsNanos + 5⟩
        ++ [true, false, false]))
    ((tsNumImpl ppsNanos).toBits ⟨tsMin ppsNanos + 5⟩ ++ [true, false, false])
    [true, false, false] [false, false] [false] [] 0 1 [false]
    ⟨tsMin ppsNanos⟩ ⟨tsMin ppsNanos + 5⟩
    (by decide) (by decide) (by decide) (by decide) (by decide) (by decide)
    (by decide)

/-! ## C1: bit round-trip of chunk metadata

Well-formedness captures the spec's invariants (§3, §4.4): every field fits
its wire width, bounds serialize losslessly and are ordered, and the gcds
are reconstructible from the common-GCD block (`gcd ≥ 1` dividing the range;
a single-offset range carries gcd `1`; when a chunk-wide common gcd is
declared, every row carries it). -/

instance goodDecidable {α : Type} [DecidableEq α] (I : NumImpl α) (x : α) :
    Decidable (I.Good x) :=
  inferInstanceAs (Decidable (I.fromBits (I.toBits x) = .ok x))

/-- Well-formedness of one prefix row relative to the flags and the chunk
entry count `n`. -/
def PrefixRow.WF {α : Type} (I : NumImpl α) (flags : Flags) (n : Nat)
    (p : PrefixRow α) : Prop :=
  p.count ≤ n
  ∧ I.Good p.lower ∧ I.Good p.upper
  ∧ I.toUnsigned p.lower ≤ I.toUnsigned p.upper
  ∧ p.code.length < 2 ^ flags.bitsToEncodeCodeLen
  ∧ p.runLenJumpstart.getD 0 < 2 ^ BITS_TO_ENCODE_JUMPSTART
  ∧ p.gcd < 2 ^ I.unsignedBits

instance prefixRowWFDecidable {α : Type} [DecidableEq α] (I : NumImpl α)
    (flags : Flags) (n : Nat) (p : PrefixRow α) :
    Decidable (PrefixRow.WF I flags n p) :=
  inferInstanceAs (Decidable (_ ∧ _ ∧ _ ∧ _ ∧ _ ∧ _ ∧ _))

/-- The gcd values of the rows, relative to the writer's `maybe_common_gcd`:
with a declared common gcd every row carries it; without one, a
single-offset row carries `1` and any other row carries a non-zero divisor
of its range. -/
def gcdsWFcore {α : Type} (I : NumImpl α) (ps : List (PrefixRow α)) :
    Option Nat → Prop
  | some g => ∀ p ∈ ps, p.gcd = g
  | none => ∀ p ∈ ps,
      (I.toUnsigned p.upper = I.toUnsigned p.lower → p.gcd = 1)
      ∧ (I.toUnsigned p.upper ≠ I.toUnsigned p.lower →
          p.gcd ≠ 0 ∧ p.gcd ∣ (I.toUnsigned p.upper - I.toUnsigned p.lower))

instance gcdsWFcoreDecidable {α : Type} (I : NumImpl α)
    (ps : List (PrefixRow α)) : (o : Option Nat) →
    Decidable (gcdsWFcore I ps o)
  | some g => inferInstanceAs (Decidable (∀ p ∈ ps, p.gcd = g))
  | none => inferInstanceAs (Decidable (∀ p ∈ ps,
      (I.toUnsigned p.upper = I.toUnsigned p.lower → p.gcd = 1)
      ∧ (I.toUnsigned p.upper ≠ I.toUnsigned p.lower →
          p.gcd ≠ 0 ∧ p.gcd ∣ (I.toUnsigned p.upper - I.toUnsigned p.lower))))

/-- Gcd well-formedness of a whole table under the given flags. -/
def gcdsWF {α : Type} (I : NumImpl α) (flags : Flags)
    (ps : List (PrefixRow α)) : Prop :=
  gcdsWFcore I ps (chunkGcd I flags ps)

instance gcdsWFDecidable {α : Type} (I : NumImpl α) (flags : Flags)
    (ps : List (PrefixRow α)) : Decidable (gcdsWF I flags ps) :=
  inferInstanceAs (Decidable (gcdsWFcore I ps (chunkGcd I flags ps)))

/-- Well-formedness of a prefix table. -/
def tableWF {α : Type} (I : NumImpl α) (flags : Flags) (n : Nat)
    (ps : List (PrefixRow α)) : Prop :=
  ps.length < 2 ^ BITS_TO_ENCODE_N_PREFIXES
  ∧ (∀ p ∈ ps, PrefixRow.WF I flags n p)
  ∧ gcdsWF I flags ps

instance tableWFDecidable {α : Type} [DecidableEq α] (I : NumImpl α)
    (flags : Flags) (n : Nat) (ps : List (PrefixRow α)) :
    Decidable (tableWF I flags n ps) :=
  inferInstanceAs (Decidable (_ ∧ _ ∧ _))

/-- Well-formedness of the prefix-metadata variant: the variant matches the
delta order of the flags (§3), moments are present for each order with
losslessly-serializable values, and the table is well-formed over the
variant's element type. -/
def pmWF {α σ : Type} (I : NumImpl α) (S : NumImpl σ) (flags : Flags)
    (n : Nat) : PrefixMetadata α σ → Prop
  | .simple ps => flags.deltaEncodingOrder = 0 ∧ tableWF I flags n ps
  | .delta ps dm => flags.deltaEncodingOrder ≠ 0
      ∧ dm.moments.length = flags.deltaEncodingOrder
      ∧ (∀ x ∈ dm.moments, S.Good x)
      ∧ tableWF S flags n ps

instance pmWFDecidable {α σ : Type} [DecidableEq α] [DecidableEq σ]
    (I : NumImpl α) (S : NumImpl σ) (flags : Flags) (n : Nat) :
    (pm : PrefixMetadata α σ) → Decidable (pmWF I S flags n pm)
  | .simple ps =>
      inferInstanceAs (Decidable (flags.deltaEncodingOrder = 0
        ∧ tableWF I flags n ps))
  | .delta ps dm =>
      inferInstanceAs (Decidable (flags.deltaEncodingOrder ≠ 0
        ∧ dm.moments.length = flags.deltaEncodingOrder
        ∧ (∀ x ∈ dm.moments, S.Good x)
        ∧ tableWF S flags n ps))

/-- Well-formedness of a chunk metadata value relative to the flags. -/
def ChunkMetadata.WF {α σ : Type} (I : NumImpl α) (S : NumImpl σ)
    (flags : Flags) (m : ChunkMetadata α σ) : Prop :=
  m.n < 2 ^ BITS_TO_ENCODE_N_ENTRIES
  ∧ m.compressedBodySize < 2 ^ BITS_TO_ENCODE_COMPRESSED_BODY_SIZE
  ∧ pmWF I S flags m.n m.prefixMetadata

instance chunkWFDecidable {α σ : Type} [DecidableEq α] [DecidableEq σ]
    (I : NumImpl α) (S : NumImpl σ) (flags : Flags)
    (m : ChunkMetadata α σ) : Decidable (ChunkMetadata.WF I S flags m) :=
  inferInstanceAs (Decidable (_ ∧ _ ∧ _))

theorem parseJumpstart_false (s : List Bool) :
    parseJumpstart false s = .ok (none, s) := rfl

theorem parseJumpstart_true (j : Nat) (s : List Bool)
    (hj : j < 2 ^ BITS_TO_ENCODE_JUMPSTART) :
    parseJumpstart true (natBits BITS_TO_ENCODE_JUMPSTART j ++ s)
      = .ok (some j, s) := by
  unfold parseJumpstart
  rw [if_pos rfl, readUsize_natBits _ j s hj]
  rfl

theorem parseRowGcd_some {α : Type} (I : NumImpl α) (g : Nat) (lo up : α)
    (s : List Bool) : parseRowGcd I (some g) lo up s = .ok (g, s) := rfl

theorem parseRowGcd_none {α : Type} (I : NumImpl α) (lo up : α)
    (s : List Bool) :
    parseRowGcd I none lo up s
      = readGcd (I.toUnsigned up - I.toUnsigned lo) s := rfl

/-- A declared common gcd is the gcd of one of the rows, and is non-zero. -/
theorem commonGcdForChunkMeta_some {α : Type} (I : NumImpl α)
    (ps : List (PrefixRow α)) (g : Nat)
    (h : commonGcdForChunkMeta I ps = some g) :
    (∃ p ∈ ps, p.gcd = g) ∧ g ≠ 0 := by
  unfold commonGcdForChunkMeta at h
  by_cases hall : ps.all (fun p => p.gcd != 0) = true
  · rw [if_pos hall] at h
    cases hfm : (ps.filter
        (fun p => I.toUnsigned p.upper != I.toUnsigned p.lower)).map
          PrefixRow.gcd with
    | nil => rw [hfm] at h; exact absurd h (by simp)
    | cons g0 gs =>
        rw [hfm] at h
        dsimp only at h
        by_cases hgs : gs.all (fun x => x == g0) = true
        · rw [if_pos hgs] at h
          have hg : g = g0 := (Option.some.inj h).symm
          subst hg
          have hmem : g ∈ (ps.filter
              (fun p => I.toUnsigned p.upper != I.toUnsigned p.lower)).map
                PrefixRow.gcd := by
            rw [hfm]; exact List.mem_cons_self _ _
          obtain ⟨p, hp, hpg⟩ := List.mem_map.mp hmem
          have hps : p ∈ ps := List.mem_of_mem_filter hp
          refine ⟨⟨p, hps, hpg⟩, ?_⟩
          have hball := List.all_eq_true.mp hall p hps
          rw [← hpg]
          simpa using hball
        · rw [if_neg hgs] at h
          exact absurd h (by simp)
  · rw [if_neg hall] at h
    exact absurd h (by simp)

/-- One well-formed row round-trips through the row writer and parser, for a
`maybe_common_gcd` consistent with the row's gcd. -/
theorem parseOneRow_roundtrip {α : Type} (I : NumImpl α) (hI : I.Lawful)
    (bcl bcount : Nat) (mc : Option Nat) (p : PrefixRow α) (rest : List Bool)
    (hcount : p.count < 2 ^ bcount)
    (hgl : I.Good p.lower) (hgu : I.Good p.upper)
    (hord : I.toUnsigned p.lower ≤ I.toUnsigned p.upper)
    (hcl : p.code.length < 2 ^ bcl)
    (hj : p.runLenJumpstart.getD 0 < 2 ^ BITS_TO_ENCODE_JUMPSTART)
    (hgcd : ∀ g, mc = some g → p.gcd = g)
    (hgcd0 : mc = none → I.toUnsigned p.upper = I.toUnsigned p.lower →
        p.gcd = 1)
    (hgcd1 : mc = none → I.toUnsigned p.upper ≠ I.toUnsigned p.lower →
        p.gcd ≤ I.toUnsigned p.upper - I.toUnsigned p.lower) :
    parseOneRow I bcl bcount mc
        (writeOneRowBits I bcl bcount mc.isNone p ++ rest)
      = .ok (p, rest) := by
  obtain ⟨cnt, code, lo, up, jmp, gc⟩ := p
  dsimp only at hcount hgl hgu hord hcl hj hgcd hgcd0 hgcd1
  unfold writeOneRowBits parseOneRow
  dsimp only
  simp only [List.append_assoc, List.cons_append]
  rw [readUsize_natBits bcount cnt _ hcount]
  simp only [qbind_ok]
  rw [readFrom_toBits I hI lo hgl _]
  simp only [qbind_ok]
  rw [readFrom_toBits I hI up hgu _]
  simp only [qbind_ok]
  rw [if_neg (by omega)]
  rw [readUsize_natBits bcl code.length _ hcl]
  simp only [qbind_ok]
  rw [readBits_exact code.length code _ rfl]
  simp only [qbind_ok]
  cases jmp with
  | none =>
      dsimp only
      simp only [List.cons_append, List.nil_append, List.append_assoc]
      rw [readOne_cons]
      simp only [qbind_ok]
      rw [parseJumpstart_false]
      simp only [qbind_ok]
      cases mc with
      | some g =>
          dsimp only [Option.isNone]
          rw [parseRowGcd_some]
          simp only [qbind_ok]
          rw [hgcd g rfl]
          rfl
      | none =>
          dsimp only [Option.isNone]
          rw [parseRowGcd_none]
          rw [if_pos (by trivial)]
          by_cases hub : I.toUnsigned up - I.toUnsigned lo = 0
          · rw [readGcd_writeGcdBits _ gc rest (Or.inr hub)]
            simp only [qbind_ok]
            rw [if_pos hub, hgcd0 rfl (by omega)]
            rfl
          · rw [readGcd_writeGcdBits _ gc rest
              (Or.inl (gcd_fits _ gc (hgcd1 rfl (by omega))))]
            simp only [qbind_ok]
            rw [if_neg hub]
            rfl
  | some j =>
      dsimp only
      simp only [List.cons_append, List.append_assoc]
      rw [readOne_cons]
      simp only [qbind_ok]
      rw [parseJumpstart_true j _ (by simpa using hj)]
      simp only [qbind_ok]
      cases mc with
      | some g =>
          dsimp only [Option.isNone]
          rw [parseRowGcd_some]
          simp only [qbind_ok]
          rw [hgcd g rfl]
          rfl
      | none =>
          dsimp only [Option.isNone]
          rw [parseRowGcd_none]
          rw [if_pos (by trivial)]
          by_cases hub : I.toUnsigned up - I.toUnsigned lo = 0
          · rw [readGcd_writeGcdBits _ gc rest (Or.inr hub)]
            simp only [qbind_ok]
            rw [if_pos hub, hgcd0 rfl (by omega)]
            rfl
          · rw [readGcd_writeGcdBits _ gc rest
              (Or.inl (gcd_fits _ gc (hgcd1 rfl (by omega))))]
            simp only [qbind_ok]
            rw [if_neg hub]
            rfl

/-- A list of rows each of which round-trips parses back from the
concatenation of its writes. -/
theorem parseRows_roundtrip {α : Type} (I : NumImpl α) (bcl bcount : Nat)
    (mc : Option Nat) :
    ∀ (ps : List (PrefixRow α)) (rest : List Bool),
      (∀ p ∈ ps, ∀ r : List Bool,
        parseOneRow I bcl bcount mc
            (writeOneRowBits I bcl bcount mc.isNone p ++ r) = .ok (p, r)) →
      parseRows I bcl bcount mc ps.length
          ((ps.map (writeOneRowBits I bcl bcount mc.isNone)).flatten ++ rest)
        = .ok (ps, rest) := by
  intro ps
  induction ps with
  | nil => intro rest _; rfl
  | cons p ps ih =>
      intro rest h
      show parseRows I bcl bcount mc (ps.length + 1) _ = _
      rw [List.map_cons, List.flatten_cons, List.append_assoc]
      unfold parseRows
      rw [h p (List.mem_cons_self p ps) _]
      simp only [qbind_ok]
      rw [ih rest (fun q hq r => h q (List.mem_cons_of_mem p hq) r)]
      simp only [qbind_ok]
      rfl

/-- Well-formed delta moments round-trip. -/
theorem parseDeltaMoments_roundtrip {σ : Type} (S : NumImpl σ)
    (hS : S.Lawful) :
    ∀ (ms : List σ) (rest : List Bool), (∀ x ∈ ms, S.Good x) →
      parseDeltaMoments S ms.length ((ms.map S.toBits).flatten ++ rest)
        = .ok (⟨ms⟩, rest) := by
  intro ms
  induction ms with
  | nil => intro rest _; rfl
  | cons x ms ih =>
      intro rest h
      show parseDeltaMoments S (ms.length + 1) _ = _
      rw [List.map_cons, List.flatten_cons, List.append_assoc]
      unfold parseDeltaMoments
      rw [readFrom_toBits S hS x (h x (List.mem_cons_self x ms)) _]
      simp only [qbind_ok]
      rw [ih rest (fun y hy => h y (List.mem_cons_of_mem x hy))]
      simp only [qbind_ok]
      rfl

/-- A well-formed prefix table round-trips through `write_prefixes` /
`parse_prefixes`. -/
theorem parseGcdBlock_false {α : Type} (I : NumImpl α) (s : List Bool) :
    parseGcdBlock I false s = .ok (some 1, s) := rfl

theorem parseGcdBlock_true_none {α : Type} (I : NumImpl α) (s : List Bool) :
    parseGcdBlock I true (false :: s) = .ok (none, s) := rfl

theorem parseGcdBlock_true_some {α : Type} (I : NumImpl α) (g : Nat)
    (s : List Bool) (hg : g < 2 ^ I.unsignedBits) (hnz : g ≠ 0) :
    parseGcdBlock I true
        ((true :: writeGcdBits (2 ^ I.unsignedBits - 1) g) ++ s)
      = .ok (some g, s) := by
  unfold parseGcdBlock
  rw [if_pos rfl, List.cons_append, readOne_cons]
  simp only [qbind_ok, if_pos rfl]
  by_cases hw0 : 2 ^ I.unsignedBits - 1 = 0
  · exfalso
    have h1 : (1 : Nat) ≤ 2 ^ I.unsignedBits := Nat.one_le_two_pow
    omega
  · have hfit : g < 2 ^ gcdBits (2 ^ I.unsignedBits - 1) := by
      rw [show gcdBits (2 ^ I.unsignedBits - 1)
          = bitsUsed (2 ^ I.unsignedBits - 1) from rfl,
        bitsUsed_two_pow_sub_one]
      exact hg
    rw [readGcd_writeGcdBits _ g s (Or.inl hfit)]
    rw [if_neg hw0]
    rfl

theorem parsePrefixes_roundtrip {α : Type} (I : NumImpl α) (hI : I.Lawful)
    (flags : Flags) (n : Nat) (ps : List (PrefixRow α)) (rest : List Bool)
    (hlen : ps.length < 2 ^ BITS_TO_ENCODE_N_PREFIXES)
    (hrows : ∀ p ∈ ps, PrefixRow.WF I flags n p)
    (hgcds : gcdsWF I flags ps) :
    parsePrefixes I flags n (writePrefixesBits I ps flags n ++ rest)
      = .ok (ps, rest) := by
  have hrow1 : ∀ (mcv : Option Nat),
      (∀ p ∈ ps, ∀ g, mcv = some g → p.gcd = g) →
      (mcv = none → gcdsWFcore I ps none) →
      ∀ p ∈ ps, ∀ r : List Bool,
        parseOneRow I flags.bitsToEncodeCodeLen (bitsToEncodeCount n) mcv
            (writeOneRowBits I flags.bitsToEncodeCodeLen
              (bitsToEncodeCount n) mcv.isNone p ++ r) = .ok (p, r) := by
    intro mcv hsome hnone p hp r
    obtain ⟨hc, hgl, hgu, hord, hcl, hj, _⟩ := hrows p hp
    refine parseOneRow_roundtrip I hI _ _ mcv p r
      (bitsToEncodeCount_wide n p.count hc) hgl hgu hord hcl hj
      (hsome p hp) ?_ ?_
    · intro hmc heq
      exact ((hnone hmc) p hp).1 heq
    · intro hmc hne
      obtain ⟨hnz, hdvd⟩ := ((hnone hmc) p hp).2 hne
      exact Nat.le_of_dvd (by omega) hdvd
  unfold parsePrefixes writePrefixesBits
  simp only [List.append_assoc]
  rw [readUsize_natBits _ ps.length _ hlen]
  simp only [qbind_ok]
  unfold gcdsWF at hgcds
  cases hug : flags.useGcds with
  | false =>
      have hcg : chunkGcd I flags ps = some 1 := by
        rw [chunkGcd, hug]
        rfl
      rw [hcg] at hgcds ⊢
      dsimp only
      rw [parseGcdBlock_false]
      simp only [qbind_ok]
      exact parseRows_roundtrip I _ _ (some 1) ps rest
        (hrow1 (some 1)
          (fun p hp g hg => by rw [hgcds p hp]; exact Option.some.inj hg)
          (fun hh => Option.noConfusion hh))
  | true =>
      have hcg : chunkGcd I flags ps = commonGcdForChunkMeta I ps := by
        rw [chunkGcd, hug]
        rfl
      cases hmc : commonGcdForChunkMeta I ps with
      | some g =>
          rw [hmc] at hcg
          rw [hcg] at hgcds ⊢
          dsimp only
          obtain ⟨⟨pg, hpg, hpgg⟩, hgnz⟩ :=
            commonGcdForChunkMeta_some I ps g hmc
          have hgfit : g < 2 ^ I.unsignedBits := by
            have hb := (hrows pg hpg).2.2.2.2.2.2
            omega
          rw [if_pos (by trivial)]
          simp only [Option.isSome, Option.isNone]
          rw [parseGcdBlock_true_some I g _ hgfit hgnz]
          simp only [qbind_ok]
          exact parseRows_roundtrip I _ _ (some g) ps rest
            (hrow1 (some g)
              (fun p hp g' hg' => by rw [hgcds p hp]; exact Option.some.inj hg')
              (fun hh => Option.noConfusion hh))
      | none =>
          rw [hmc] at hcg
          rw [hcg] at hgcds ⊢
          dsimp only
          rw [if_pos (by trivial)]
          simp only [Option.isSome, Option.isNone, List.cons_append,
            List.nil_append]
          rw [parseGcdBlock_true_none]
          simp only [qbind_ok]
          exact parseRows_roundtrip I _ _ none ps rest
            (hrow1 none (fun p hp g hg => Option.noConfusion hg)
              (fun _ => hgcds))

/-- **C1**: a well-formed `ChunkMetadata` value written with `write_to`
under flags `f` parses back with `parse_from` under the same flags to an
equal value — equal `n`, `compressed_body_size`, and prefix metadata
(including every row's `count`, `lower`, `upper`, `code`,
`run_len_jumpstart`, and `gcd`, and the delta moments when present).  The
reader is left exactly with the zero-padding `finish_byte` appended. -/
theorem c1_chunk_metadata_roundtrip {α σ : Type} (I : NumImpl α)
    (S : NumImpl σ) (hI : I.Lawful) (hS : S.Lawful) (flags : Flags)
    (m : ChunkMetadata α σ) (hwf : ChunkMetadata.WF I S flags m) :
    parseFrom I S flags (writeTo I S flags m [])
      = .ok (m, List.replicate
          ((8 - (writeToBits I S flags m).length % 8) % 8) false) := by
  obtain ⟨n, c, pm⟩ := m
  obtain ⟨hn, hc, hpm⟩ := hwf
  have hw : writeTo I S flags ⟨n, c, pm⟩ []
      = writeToBits I S flags ⟨n, c, pm⟩
        ++ List.replicate
          ((8 - (writeToBits I S flags ⟨n, c, pm⟩).length % 8) % 8) false := by
    rw [writeTo, finishByte]
    simp
  rw [hw]
  cases pm with
  | simple ps =>
      obtain ⟨hord0, hlen, hrows, hgcds⟩ := hpm
      unfold parseFrom
      rw [show writeToBits I S flags ⟨n, c, .simple ps⟩
          = natBits BITS_TO_ENCODE_N_ENTRIES n
            ++ natBits BITS_TO_ENCODE_COMPRESSED_BODY_SIZE c
            ++ writePrefixesBits I ps flags n from rfl]
      simp only [List.append_assoc]
      rw [readUsize_natBits _ n _ hn]
      simp only [qbind_ok]
      rw [readUsize_natBits _ c _ hc]
      simp only [qbind_ok]
      rw [if_pos hord0]
      rw [parsePrefixes_roundtrip I hI flags n ps _ hlen hrows hgcds]
      simp only [qbind_ok]
      rfl
  | delta ps dm =>
      obtain ⟨hordne, hmlen, hmgood, hlen, hrows, hgcds⟩ := hpm
      obtain ⟨ms⟩ := dm
      have hmlen1 : ms.length = flags.deltaEncodingOrder := hmlen
      have hmgood1 : ∀ x ∈ ms, S.Good x := hmgood
      unfold parseFrom
      rw [show writeToBits I S flags ⟨n, c, .delta ps ⟨ms⟩⟩
          = natBits BITS_TO_ENCODE_N_ENTRIES n
            ++ natBits BITS_TO_ENCODE_COMPRESSED_BODY_SIZE c
            ++ ((ms.map S.toBits).flatten ++ writePrefixesBits S ps flags n)
          from rfl]
      simp only [List.append_assoc]
      rw [readUsize_natBits _ n _ hn]
      simp only [qbind_ok]
      rw [readUsize_natBits _ c _ hc]
      simp only [qbind_ok]
      rw [if_neg hordne]
      rw [← hmlen1]
      rw [parseDeltaMoments_roundtrip S hS ms _ hmgood1]
      simp only [qbind_ok]
      rw [parsePrefixes_roundtrip S hS flags n ps _ hlen hrows hgcds]
      simp only [qbind_ok]
      rfl

set_option maxRecDepth 10000 in
/-- Witness for C1: a concrete one-row chunk over nanosecond timestamps
(order 0, gcds off) round-trips. -/
theorem c1_chunk_metadata_roundtrip_witness :
    parseFrom (tsNumImpl ppsNanos) (tsNumImpl ppsNanos) ⟨0, false, 2⟩
        (writeTo (tsNumImpl ppsNanos) (tsNumImpl ppsNanos) ⟨0, false, 2⟩
          ⟨1, 7, .simple [⟨1, [false], ⟨tsMin ppsNanos⟩,
            ⟨tsMin ppsNanos + 4⟩, none, 1⟩]⟩ [])
      = .ok (⟨1, 7, .simple [⟨1, [false], ⟨tsMin ppsNanos⟩,
            ⟨tsMin ppsNanos + 4⟩, none, 1⟩]⟩,
          List.replicate ((8 - (writeToBits (tsNumImpl ppsNanos)
            (tsNumImpl ppsNanos) ⟨0, false, 2⟩ ⟨1, 7, .simple [⟨1, [false],
            ⟨tsMin ppsNanos⟩, ⟨tsMin ppsNanos + 4⟩, none, 1⟩]⟩).length % 8)
            % 8) false) :=
  c1_chunk_metadata_roundtrip (tsNumImpl ppsNanos) (tsNumImpl ppsNanos)
    (tsNumImpl_lawful ppsNanos) (tsNumImpl_lawful ppsNanos) ⟨0, false, 2⟩
    ⟨1, 7, .simple [⟨1, [false], ⟨tsMin ppsNanos⟩, ⟨tsMin ppsNanos + 4⟩,
      none, 1⟩]⟩ (by decide)

end QC
